import Mathlib

/-!
Verification development for the CSharpRefactorer MCP server
(`src/csharp_refactorer.js`, the most complete variant).

The JavaScript source is shallowly embedded: JS strings are Lean `String`s,
JS objects with string keys are insertion-ordered association lists,
mutable instance state (`this.sourceCode`, `this.processedMethods`, ...) is
threaded explicitly, `throw` becomes `Except.error`, and filesystem calls
(`fs.mkdir`, `fs.writeFile`) become constructors of an effect trace.
-/

namespace CSRef

/-- The set of characters matched by the JavaScript regex class `\s`
(ECMAScript WhiteSpace and LineTerminator). -/
def isJsWhitespace (c : Char) : Bool :=
  c = ' ' || c = '\t' || c = '\n' || c = '\r' || c = '\x0b' || c = '\x0c' ||
  c = '\u00A0' || c = '\u1680' ||
  ('\u2000' ≤ c && c ≤ '\u200A') ||
  c = '\u2028' || c = '\u2029' || c = '\u202F' || c = '\u205F' ||
  c = '\u3000' || c = '\uFEFF'

/-- JS `s.split('\n').length`: one more than the number of newline
characters (splitting on a one-character separator yields one piece per
occurrence plus one). -/
def countLines (s : String) : Nat :=
  (s.data.filter (fun c => c = '\n')).length + 1

/-- Replace the leftmost occurrence of a nonempty pattern in a character
list, leaving the list unchanged when the pattern does not occur. -/
def listReplaceFirst : List Char → List Char → List Char → List Char
  | s, [], repl => repl ++ s
  | [], _ :: _, _ => []
  | c :: rest, p :: ps, repl =>
    if (p :: ps).isPrefixOf (c :: rest) then repl ++ (c :: rest).drop (p :: ps).length
    else c :: listReplaceFirst rest (p :: ps) repl

/-- JS `String.prototype.replace` with a plain-string pattern: replace the
first occurrence of `pat` in `s` by `repl`; if `pat` does not occur, `s` is
returned unchanged.  (JS replaces at index 0 when the pattern is empty.) -/
def replaceFirst (s pat repl : String) : String :=
  String.mk (listReplaceFirst s.data pat.data repl.data)

/-- Replace every non-overlapping occurrence of `pat` (left to right) in a
character list; `fuel` bounds the recursion (each step consumes at least
one character for a nonempty pattern). -/
def listReplaceAllFuel (pat repl : List Char) : Nat → List Char → List Char
  | 0, s => s
  | _ + 1, [] => []
  | fuel + 1, c :: rest =>
    if pat.isPrefixOf (c :: rest) then
      repl ++ listReplaceAllFuel pat repl fuel ((c :: rest).drop pat.length)
    else c :: listReplaceAllFuel pat repl fuel rest

/-- JS `String.prototype.replace` with a global literal regex
(`/#region/g`-style): every non-overlapping occurrence, left to right. -/
def jsReplaceAll (s pat repl : String) : String :=
  if pat = "" then s
  else String.mk (listReplaceAllFuel pat.data repl.data (s.data.length + 1) s.data)

/-- JS `Array.prototype.join(sep)`. -/
def joinSep (sep : String) : List String → String
  | [] => ""
  | [x] => x
  | x :: y :: xs => x ++ sep ++ joinSep sep (y :: xs)

/-- Global regex replacement for the class run `[\s\r\n]+`: each maximal
run of whitespace characters is replaced by `repl`, once per run.  `fuel`
bounds the recursion (each step consumes at least one character), keeping
the function kernel-reducible. -/
def replaceWsRuns (repl : List Char) : Nat → List Char → List Char
  | 0, l => l
  | _ + 1, [] => []
  | fuel + 1, c :: cs =>
    if isJsWhitespace c then repl ++ replaceWsRuns repl fuel (cs.dropWhile isJsWhitespace)
    else c :: replaceWsRuns repl fuel cs

/-- `rawMethod.replace(/[\s\r\n]+/g, '')` on a character list. -/
def stripWsRuns (l : List Char) : List Char :=
  replaceWsRuns [] (l.length + 1) l

/-- JS `String.prototype.trim`: drop whitespace from both ends. -/
def jsTrim (s : String) : String :=
  String.mk (((s.data.dropWhile isJsWhitespace).reverse.dropWhile isJsWhitespace).reverse)

/-- `csharp_refactorer.js` line 62: the normalized signature key,
`fullSignatureRaw.replace(/[\s\r\n]+/g, '').trim()`. -/
def signatureKeyOf (sig : String) : String :=
  jsTrim (String.mk (stripWsRuns sig.data))

/-- One entry of the by-name method index
(`csharp_refactorer.js` lines 116-121). -/
structure MethodInfo where
  signature : String
  content : String
  signatureKey : String
  lineCount : Nat
deriving Repr, DecidableEq

/-- JS object property read `obj[k]` on an insertion-ordered string-keyed
object modelled as an association list. -/
def lookupAssoc {α : Type} (m : List (String × α)) (k : String) : Option α :=
  (m.find? (fun p => p.1 = k)).map (fun p => p.2)

/-- JS object property write `obj[k] = v`: overwrite in place if the key is
present (JS objects keep the original insertion position), else append. -/
def setAssoc {α : Type} (m : List (String × α)) (k : String) (v : α) :
    List (String × α) :=
  if (m.find? (fun p => p.1 = k)).isSome then
    m.map (fun p => if p.1 = k then (k, v) else p)
  else m ++ [(k, v)]

/-- JS `Set.prototype.add` on a set modelled as a duplicate-free list. -/
def setAdd (s : List String) (k : String) : List String :=
  if s.contains k then s else s ++ [k]

/-- The record extracted for one regex match of the method pattern in
`parseCSharpMethods` (`csharp_refactorer.js` lines 48-103): the captured
signature (`match[1]`), the method name (`match[2]`), and the method content
(preceding comment block plus the brace-delimited method text).  The
enumeration of matches is performed by the regex engine upstream; the claims
about `parseCSharpMethods` concern what lines 104-122 do with each match,
which is modelled by `insertParsedMethod` below. -/
structure RawMethod where
  signature : String
  methodName : String
  content : String
deriving Repr, DecidableEq

/-- The `MethodInfo` record pushed for a raw match
(`csharp_refactorer.js` lines 116-121). -/
def mkInfo (rm : RawMethod) : MethodInfo :=
  { signature := rm.signature
    content := rm.content
    signatureKey := signatureKeyOf rm.signature
    lineCount := countLines rm.content }

/-- Index state built by `parseCSharpMethods`: the signature-keyed index
`methods`, the by-name index `methodsByName`, and the number of duplicate
signature warnings printed by `console.warn` (line 106). -/
structure IndexState where
  methods : List (String × String)
  methodsByName : List (String × List MethodInfo)
  warnings : Nat
deriving Repr, DecidableEq

/-- Body of the per-match insertion (`csharp_refactorer.js` lines 104-122):
warn on a duplicate signature key, overwrite the signature index entry, and
append a new entry to the by-name overload list. -/
def insertParsedMethod (st : IndexState) (rm : RawMethod) : IndexState :=
  let key := signatureKeyOf rm.signature
  let warnings :=
    if (lookupAssoc st.methods key).isSome then st.warnings + 1 else st.warnings
  let methods := setAssoc st.methods key rm.content
  let info := mkInfo rm
  let methodsByName :=
    match lookupAssoc st.methodsByName rm.methodName with
    | none => st.methodsByName ++ [(rm.methodName, [info])]
    | some l => setAssoc st.methodsByName rm.methodName (l ++ [info])
  { methods := methods, methodsByName := methodsByName, warnings := warnings }

/-- The index-building loop of `parseCSharpMethods` over the list of regex
matches, in source scan order. -/
def buildIndexes (ms : List RawMethod) : IndexState :=
  ms.foldl insertParsedMethod { methods := [], methodsByName := [], warnings := 0 }

/-- Specification-side count of matches whose normalized signature key
already occurred among the earlier matches (the duplicate-signature
warning condition). -/
def dupKeyCount (seen : List String) : List RawMethod → Nat
  | [] => 0
  | rm :: ms =>
    (if seen.contains (signatureKeyOf rm.signature) then 1 else 0) +
    dupKeyCount (signatureKeyOf rm.signature :: seen) ms

/-- Specification-side shape of a by-name index entry after appending new
overloads: absent stays absent only when nothing is appended. -/
def appendEntries (o : Option (List MethodInfo)) (l : List MethodInfo) :
    Option (List MethodInfo) :=
  match o, l with
  | none, [] => none
  | none, l => some l
  | some l0, l => some (l0 ++ l)

/-- JS regex class `\w`: ASCII letters, digits and underscore. -/
def isWordChar (c : Char) : Bool :=
  (('a' ≤ c && c ≤ 'z') || ('A' ≤ c && c ≤ 'Z') || ('0' ≤ c && c ≤ '9') || c = '_')

/-- Drop the literal character sequence `pre` from the front of `l`, if it
is a prefix. -/
def dropLit : List Char → List Char → Option (List Char)
  | [], l => some l
  | _ :: _, [] => none
  | p :: ps, c :: cs => if p = c then dropLit ps cs else none

/-- Attempt `class\s+(\w+)` at the head of `l` (the tail of the regex
`/public\s+(?:\w+\s+)*?class\s+(\w+)/` after the lazy modifier loop). -/
def matchClassWord (l : List Char) : Option String :=
  match dropLit "class".data l with
  | none => none
  | some r =>
    if r.takeWhile isJsWhitespace = [] then none
    else
      let r1 := r.dropWhile isJsWhitespace
      let w := r1.takeWhile isWordChar
      if w = [] then none else some (String.mk w)

/-- The lazy repetition `(?:\w+\s+)*?` before `class\s+(\w+)`: first try the
tail with zero further repetitions, else consume one `\w+\s+` block and
retry.  `fuel` bounds the recursion (each round consumes at least two
characters). -/
def classNameTail : Nat → List Char → Option String
  | 0, _ => none
  | fuel + 1, l =>
    match matchClassWord l with
    | some name => some name
    | none =>
      if l.takeWhile isWordChar = [] then none
      else
        let l1 := l.dropWhile isWordChar
        if l1.takeWhile isJsWhitespace = [] then none
        else classNameTail fuel (l1.dropWhile isJsWhitespace)

/-- Attempt the full pattern `public\s+(?:\w+\s+)*?class\s+(\w+)` at the
head of `l`, returning the captured class name. -/
def matchPublicClassAt (l : List Char) : Option String :=
  match dropLit "public".data l with
  | none => none
  | some r =>
    if r.takeWhile isJsWhitespace = [] then none
    else classNameTail (r.length + 1) (r.dropWhile isJsWhitespace)

/-- Scan for the leftmost start position at which the pattern matches. -/
def jsMatchClassNameAux : Nat → List Char → Option String
  | 0, _ => none
  | fuel + 1, l =>
    match matchPublicClassAt l with
    | some name => some name
    | none =>
      match l with
      | [] => none
      | _ :: rest => jsMatchClassNameAux fuel rest

/-- `classDeclaration.match(/public\s+(?:\w+\s+)*?class\s+(\w+)/)`
(`csharp_refactorer.js` lines 247 and 332): the captured class name of the
first match, if any. -/
def jsMatchClassName (s : String) : Option String :=
  jsMatchClassNameAux (s.data.length + 1) s.data

/-- The tail of the global rewrite pattern
`(public\s+(?:\w+\s+)*?)class\s+(NAME)` (`csharp_refactorer.js` line 336):
lazy modifier loop accumulating into capture group 1, then the literal
`class`, whitespace, and the literal class name.  Returns group 1 and the
input remaining after the whole match. -/
def modClassTail (name : List Char) : Nat → List Char → List Char → Option (List Char × List Char)
  | 0, _, _ => none
  | fuel + 1, g1, l =>
    let tryTail : Option (List Char × List Char) :=
      match dropLit "class".data l with
      | some r =>
        if r.takeWhile isJsWhitespace = [] then none
        else
          match dropLit name (r.dropWhile isJsWhitespace) with
          | some rest => some (g1, rest)
          | none => none
      | none => none
    match tryTail with
    | some res => some res
    | none =>
      let w := l.takeWhile isWordChar
      if w = [] then none
      else
        let l1 := l.dropWhile isWordChar
        let ws := l1.takeWhile isJsWhitespace
        if ws = [] then none
        else modClassTail name fuel (g1 ++ w ++ ws) (l1.dropWhile isJsWhitespace)

/-- Attempt `(public\s+(?:\w+\s+)*?)class\s+(NAME)` at the head of `l`. -/
def matchModClassAt (name : List Char) (l : List Char) : Option (List Char × List Char) :=
  match dropLit "public".data l with
  | none => none
  | some r =>
    let ws := r.takeWhile isJsWhitespace
    if ws = [] then none
    else modClassTail name (r.length + 1) ("public".data ++ ws) (r.dropWhile isJsWhitespace)

/-- Global regex replacement for
`content.replace(new RegExp('(public\\s+(?:\\w+\\s+)*?)class\\s+(NAME)', 'g'), '$1partial class $2')`
(`csharp_refactorer.js` lines 336-337): scan left to right, replacing each
non-overlapping match and continuing after it. -/
def rewriteClassAll (name : List Char) : Nat → List Char → List Char
  | 0, l => l
  | _ + 1, [] => []
  | fuel + 1, c :: rest =>
    match matchModClassAt name (c :: rest) with
    | some (g1, remaining) =>
      g1 ++ "partial class ".data ++ name ++ rewriteClassAll name fuel remaining
    | none => c :: rewriteClassAll name fuel rest

/-- The optional generic suffix `(?:\s*<[^>{}]+>)?` of the interface
injection pattern: greedily match `\s*` `<` at-least-one character other
than angle-close or braces, `>`; on failure take the empty option.
Returns the consumed characters and the rest. -/
def matchGenericSuffix (l : List Char) : List Char × List Char :=
  let ws := l.takeWhile isJsWhitespace
  let l1 := l.dropWhile isJsWhitespace
  match l1 with
  | '<' :: r =>
    let inner := r.takeWhile (fun c => !(c = '>' || c = '\x7b' || c = '\x7d'))
    if inner = [] then ([], l)
    else
      match r.dropWhile (fun c => !(c = '>' || c = '\x7b' || c = '\x7d')) with
      | '>' :: rest => (ws ++ '<' :: inner ++ ['>'], rest)
      | _ => ([], l)
  | _ => ([], l)

/-- The tail of the interface-injection pattern
`(public\s+(?:\w+\s+)*?partial\s+class\s+NAME(?:\s*<[^>{}]+>)?)`
(`csharp_refactorer.js` line 344) after `public\s+`: the lazy modifier loop,
then `partial`, whitespace, `class`, whitespace, the class name, and the
optional generic suffix.  Returns the whole matched span (capture group 1)
and the rest. -/
def ifaceTail (name : List Char) : Nat → List Char → List Char → Option (List Char × List Char)
  | 0, _, _ => none
  | fuel + 1, g1, l =>
    let tryTail : Option (List Char × List Char) :=
      match dropLit "partial".data l with
      | some r1 =>
        let ws1 := r1.takeWhile isJsWhitespace
        if ws1 = [] then none
        else
          match dropLit "class".data (r1.dropWhile isJsWhitespace) with
          | some r2 =>
            let ws2 := r2.takeWhile isJsWhitespace
            if ws2 = [] then none
            else
              match dropLit name (r2.dropWhile isJsWhitespace) with
              | some r3 =>
                let (gen, rest) := matchGenericSuffix r3
                some (g1 ++ "partial".data ++ ws1 ++ "class".data ++ ws2 ++ name ++ gen, rest)
              | none => none
          | none => none
      | none => none
    match tryTail with
    | some res => some res
    | none =>
      let w := l.takeWhile isWordChar
      if w = [] then none
      else
        let l1 := l.dropWhile isWordChar
        let ws := l1.takeWhile isJsWhitespace
        if ws = [] then none
        else ifaceTail name fuel (g1 ++ w ++ ws) (l1.dropWhile isJsWhitespace)

/-- Attempt the interface-injection pattern at the head of `l`. -/
def matchIfaceAt (name : List Char) (l : List Char) : Option (List Char × List Char) :=
  match dropLit "public".data l with
  | none => none
  | some r =>
    let ws := r.takeWhile isJsWhitespace
    if ws = [] then none
    else ifaceTail name (r.length + 1) ("public".data ++ ws) (r.dropWhile isJsWhitespace)

/-- Global replacement for the interface-injection regex: each match `$1`
is replaced by `$1 : IFACE` (`csharp_refactorer.js` lines 344-345). -/
def injectIfaceAll (name iface : List Char) : Nat → List Char → List Char
  | 0, l => l
  | _ + 1, [] => []
  | fuel + 1, c :: rest =>
    match matchIfaceAt name (c :: rest) with
    | some (g1, remaining) =>
      g1 ++ " : ".data ++ iface ++ injectIfaceAll name iface fuel remaining
    | none => c :: injectIfaceAll name iface fuel rest

/-- `content.replace(/^\n\n/, /\n/)` (`csharp_refactorer.js` line 299): the
replacement argument is a regex object, which JS coerces to the string
`/\n/` (slash, backslash, letter n, slash), so a leading pair of newlines is
replaced by those four characters. -/
def jsReplaceLeadingNN (s : String) : String :=
  match s.data with
  | '\n' :: '\n' :: rest => String.mk ("/\\n/".data ++ rest)
  | _ => s

/-- The mutable state of a `CSharpRefactorer` instance after
`parseSourceFile` (`csharp_refactorer.js` lines 19-29 and 139-192):
the extracted using statements, the target class declaration, the by-name
method index, the raw source text (which `generatePartialClass`
progressively consumes as the remainder buffer), the original namespace,
and the set of processed signature keys. -/
structure RefState where
  usingStatements : List String
  classDeclaration : String
  methodsByName : List (String × List MethodInfo)
  sourceCode : String
  oldNamespace : String
  processedMethods : List String
deriving Repr, DecidableEq

/-- `findMethodByName` (`csharp_refactorer.js` lines 199-217).  The function
returns `null` when the name is absent and otherwise executes
`return methods;` at line 206, handing back the complete overload list; the
loop below that return (skipping entries whose signature key is in
`processedMethods`) is unreachable code. -/
def findMethodByName (st : RefState) (methodName : String) : Option (List MethodInfo) :=
  lookupAssoc st.methodsByName methodName

/-- One partial-class spec from the configuration.  The JS field
`interface` is called `interfaceName` here; the empty string stands for an
absent field (the source reads it as `partialClassConfig.interface || ''`). -/
structure PartialClassConfig where
  fileName : String
  interfaceName : String
  methods : List String
deriving Repr, DecidableEq

/-- The line of the per-method breakdown in the `FileTooLarge` message
(`csharp_refactorer.js` line 306). -/
def breakdownLine (x : String × MethodInfo) : String :=
  "  - " ++ x.1 ++ ": " ++ toString x.2.lineCount ++ " lines"

/-- The `FileTooLarge` error message (`csharp_refactorer.js` line 307),
including the per-method line-count breakdown of the emitted methods. -/
def tooLargeMessage (fileName : String) (finalLineCount totalLines : Nat)
    (emitted : List (String × MethodInfo)) : String :=
  "Generated partial class exceeds 5000-line limit!\n\nFile: " ++ fileName ++
  "\nTotal lines: " ++ toString finalLineCount ++
  "\nMethod lines: " ++ toString totalLines ++
  "\nStructure lines: " ++ toString ((finalLineCount : Int) - (totalLines : Int)) ++
  "\n\nMethods included:\n" ++ joinSep "\n" (emitted.map breakdownLine) ++
  "\n\nPlease split the methods into smaller groups to stay within the 5000-line limit."

deriving instance DecidableEq for Except

/-- Result of one `generatePartialClass` call: the updated instance state,
the trace of emitted (requested name, method entry) pairs in emission order
(the local `processedMethods` array of the source, lines 264 and 290), the
local `totalLines` accumulator, the generated content, and either that
content or the thrown error. -/
structure GenResult where
  state : RefState
  emitted : List (String × MethodInfo)
  totalLines : Nat
  content : String
  result : Except String String
deriving Repr, DecidableEq

/-- The accumulator of the method-emission loop of `generatePartialClass`:
instance state, content built so far, emission trace, `totalLines`. -/
structure EmitAcc where
  state : RefState
  content : String
  emitted : List (String × MethodInfo)
  totalLines : Nat
deriving Repr, DecidableEq

/-- The inner loop body of `generatePartialClass`
(`csharp_refactorer.js` lines 276-291), for one overload entry of a
requested name: mark the signature key processed, append the method content,
remove the content from the remainder buffer, and trace the emission. -/
def emitOne (methodName : String) (acc : EmitAcc) (mi : MethodInfo) : EmitAcc :=
  { state :=
      { acc.state with
        processedMethods := setAdd acc.state.processedMethods mi.signatureKey
        sourceCode := replaceFirst acc.state.sourceCode mi.content "" }
    content := acc.content ++ mi.content ++ "\n\n"
    emitted := acc.emitted ++ [(methodName, mi)]
    totalLines := acc.totalLines + mi.lineCount }

/-- The outer loop body of `generatePartialClass`
(`csharp_refactorer.js` lines 268-292), for one requested name: skip when
`findMethodByName` yields nothing, else emit every entry of the list. -/
def emitName (acc : EmitAcc) (methodName : String) : EmitAcc :=
  match findMethodByName acc.state methodName with
  | none => acc
  | some l => l.foldl (emitOne methodName) acc

/-- `generatePartialClass` (`csharp_refactorer.js` lines 233-311).  For each
requested method name, `findMethodByName` yields the full overload list (or
`none`); every entry of the list is marked processed, appended to the
content, removed from the remainder buffer (`this.sourceCode`), and traced.
After region commenting and the leading-newline quirk, content over 5000
lines raises the `FileTooLarge` error instead of returning the content. -/
def generatePartialClass (st : RefState) (cfg : PartialClassConfig)
    (newNamespace : String) : GenResult :=
  let content := st.usingStatements.foldl (fun a u => a ++ u ++ "\n") ""
  let content := content ++ "\n"
  let content := content ++ "namespace " ++ newNamespace ++ "\n\x7b\n"
  let classDecl :=
    match jsMatchClassName st.classDeclaration with
    | some n =>
      replaceFirst st.classDeclaration ("public class " ++ n) ("public partial class " ++ n)
    | none => st.classDeclaration
  let classDecl :=
    if cfg.interfaceName ≠ "" then
      replaceFirst classDecl "\x7b" (" : " ++ cfg.interfaceName ++ " \x7b")
    else classDecl
  let content := content ++ "    " ++ classDecl ++ "\n    \x7b\n"
  let out := cfg.methods.foldl emitName
    { state := st, content := content, emitted := [], totalLines := 0 }
  let content := out.content ++ "    \x7d\n\x7d"
  let content := jsReplaceAll content "#endregion" "//#endregion"
  let content := jsReplaceAll content "#region" "//#region"
  let content := jsReplaceLeadingNN content
  { state := out.state, emitted := out.emitted, totalLines := out.totalLines,
    content := content,
    result :=
      if countLines content > 5000 then
        Except.error (tooLargeMessage cfg.fileName (countLines content) out.totalLines out.emitted)
      else Except.ok content }

/-- `generateMainPartialClass` (`csharp_refactorer.js` lines 320-350): the
remainder buffer with the namespace renamed, every modifier-qualified class
declaration of the main class rewritten to `partial`, and the main
interface injected after the rewritten declaration when given.  The
`mainClassName` argument of the source is shadowed and unused. -/
def generateMainPartialClass (st : RefState) (newNamespace : String)
    (_mainClassName : String) (mainInterface : String) : String :=
  let content := st.sourceCode
  let content :=
    if st.oldNamespace ≠ "" then
      replaceFirst content ("namespace " ++ st.oldNamespace) ("namespace " ++ newNamespace)
    else content
  match jsMatchClassName st.classDeclaration with
  | some name =>
    let content := String.mk (rewriteClassAll name.data (content.data.length + 1) content.data)
    if mainInterface ≠ "" then
      String.mk (injectIfaceAll name.data mainInterface.data (content.data.length + 1) content.data)
    else content
  | none => content

/-- Filesystem calls made by `ProcessSplitCSharpclassSimple`, recorded as a
trace: `fs.mkdir(dir, { recursive: true })` and
`fs.writeFile(path, content, 'utf-8')`. -/
inductive FsEffect where
  | mkdirRecursive (path : String)
  | writeFile (path : String) (content : String)
deriving Repr, DecidableEq

/-- Whether an effect writes a file. -/
def FsEffect.isWrite : FsEffect → Bool
  | .writeFile _ _ => true
  | .mkdirRecursive _ => false

/-- `path.join(destinationFolder, fileName)`, used only as an output-file
identifier (separator normalization is irrelevant here). -/
def pathJoin (a b : String) : String := a ++ "/" ++ b

/-- The merged split-job configuration (output of `mergeConfigurations`,
`csharp_refactorer.js` lines 706-714). -/
structure JobConfig where
  sourceFile : String
  targetClassName : Option String
  destinationFolder : String
  newNamespace : String
  mainPartialClassName : String
  mainInterface : String
  partialClasses : List PartialClassConfig
deriving Repr, DecidableEq

/-- The pre-generation validation of `ProcessSplitCSharpclassSimple`
(`csharp_refactorer.js` lines 1197-1219): one error per requested method
name missing from the by-name index, plus one incomplete-configuration
error when some parsed method name is requested by no spec.  (Quoting
characters of the JS messages are elided.) -/
def notFoundMsg (pc : PartialClassConfig) (m : String) : String :=
  "Method " ++ m ++ " not found in source code (requested in " ++ pc.fileName ++ ")"

/-- Inner validation loop over one spec's method names
(`csharp_refactorer.js` lines 1202-1209). -/
def innerNotFound (st : RefState) (pc : PartialClassConfig) (acc : List String) :
    List String :=
  pc.methods.foldl (fun acc2 m =>
    if (lookupAssoc st.methodsByName m).isNone then acc2 ++ [notFoundMsg pc m]
    else acc2) acc

/-- Outer validation loop over the specs (`csharp_refactorer.js` lines
1201-1210): the `allErrors` accumulator after the existence checks. -/
def collectNotFound (st : RefState) (pcs : List PartialClassConfig) : List String :=
  pcs.foldl (fun acc pc => innerNotFound st pc acc) []

/-- The flat list of all requested method names
(`csharp_refactorer.js` lines 1199-1214, `allRequestedMethods`). -/
def requestedNames (pcs : List PartialClassConfig) : List String :=
  pcs.foldl (fun acc pc => acc ++ pc.methods) []

/-- The names of the by-name index absent from every spec
(`csharp_refactorer.js` line 1215). -/
def missingFromConfig (st : RefState) (pcs : List PartialClassConfig) : List String :=
  (st.methodsByName.map (fun p => p.1)).filter
    (fun n => !((requestedNames pcs).contains n))

def validationErrors (st : RefState) (pcs : List PartialClassConfig) : List String :=
  let allErrors := collectNotFound st pcs
  if missingFromConfig st pcs ≠ [] then
    allErrors ++
      ["Configuration is incomplete. The following methods from source code are not included in any partial class:\n" ++
       joinSep "\n" ((missingFromConfig st pcs).map (fun m => "  - " ++ m)) ++
       "\n\nAll methods must be assigned to a partial class configuration."]
  else allErrors

/-- The validation-failure message (`csharp_refactorer.js` line 1223). -/
def validationMessage (st : RefState) (errs : List String) : String :=
  "Cannot generate partial classes due to validation errors:\n\n" ++
  joinSep "\n"
    ((List.range errs.length).zip errs |>.map (fun p => toString (p.1 + 1) ++ ". " ++ p.2)) ++
  "\n\nAvailable methods in source code:\n" ++
  joinSep ", " (st.methodsByName.map (fun p => p.1))

/-- The file-generation loop of `ProcessSplitCSharpclassSimple`
(`csharp_refactorer.js` lines 1228-1245): generate each spec in order,
abort the job on a thrown error (no write for the failing spec, none
after), apply the orchestrator-level 5000-line re-check, and write the file
otherwise.  Returns the final state, the write effects in order, the
per-spec emission traces, and the first error if any. -/
def genLoop (st : RefState) (pcs : List PartialClassConfig) (ns dest : String) :
    RefState × List FsEffect × List (List (String × MethodInfo)) × Option String :=
  match pcs with
  | [] => (st, [], [], none)
  | pc :: rest =>
    let g := generatePartialClass st pc ns
    match g.result with
    | Except.error e => (g.state, [], [g.emitted], some e)
    | Except.ok content =>
      if countLines content > 5000 then
        (g.state, [], [g.emitted],
         some ("Generated partial file " ++ pc.fileName ++
           " exceeds 5000 lines. Please split the methods into smaller groups in the configuration."))
      else
        let r := genLoop g.state rest ns dest
        (r.1, FsEffect.writeFile (pathJoin dest pc.fileName) content :: r.2.1,
         g.emitted :: r.2.2.1, r.2.2.2)

/-- Outcome of one whole split job. -/
structure SplitOutcome where
  state : RefState
  effects : List FsEffect
  emittedLists : List (List (String × MethodInfo))
  result : Except String Unit
deriving Repr, DecidableEq

/-- `ProcessSplitCSharpclassSimple` (`csharp_refactorer.js` lines
1159-1282) after configuration merge and source parsing: create the
destination folder, validate, and only then generate and write the partial
files followed by the core file. -/
def processSplit (st : RefState) (cfg : JobConfig) : SplitOutcome :=
  let mk := FsEffect.mkdirRecursive cfg.destinationFolder
  let errs := validationErrors st cfg.partialClasses
  if errs ≠ [] then
    { state := st, effects := [mk], emittedLists := [],
      result := Except.error (validationMessage st errs) }
  else
    let r := genLoop st cfg.partialClasses cfg.newNamespace cfg.destinationFolder
    match r.2.2.2 with
    | some e =>
      { state := r.1, effects := mk :: r.2.1, emittedLists := r.2.2.1,
        result := Except.error e }
    | none =>
      let mainContent :=
        generateMainPartialClass r.1 cfg.newNamespace cfg.mainPartialClassName cfg.mainInterface
      { state := r.1,
        effects := mk :: r.2.1 ++
          [FsEffect.writeFile (pathJoin cfg.destinationFolder cfg.mainPartialClassName) mainContent],
        emittedLists := r.2.2.1,
        result := Except.ok () }

/-- The post-job unprocessed-methods report (`csharp_refactorer.js` lines
1259-1265): names with at least one overload entry whose signature key was
never marked processed; the source reports that these "will remain in the
main partial class file". -/
def unprocessedNames (st : RefState) : List String :=
  (st.methodsByName.filter
    (fun p => p.2.any (fun m => !(st.processedMethods.contains m.signatureKey)))).map
    (fun p => p.1)

/-- The brace scan that delimits a method (`csharp_refactorer.js` lines
74-126): character by character from the position after the opening brace,
tracking only a line-comment flag (set on `//`, cleared at `\n`; the
comparison `char === '\r\n'` of line 86 can never hold).  Braces are
counted whenever the flag is off — including inside string literals and
block comments.  `l` is the text after the opening brace, `j` the relative
index, `depth` the brace count (starting at 1). -/
def methodScanAux : List Char → Nat → Nat → Bool → Option Nat
  | [], _, _, _ => none
  | c :: rest, j, depth, icl =>
    let icl := if c = '/' && rest.head? = some '/' then true else icl
    let icl := if c = '\n' then false else icl
    let depth :=
      if !icl then
        if c = '\x7b' then depth + 1 else if c = '\x7d' then depth - 1 else depth
      else depth
    if depth = 0 then some j else methodScanAux rest (j + 1) depth icl

/-- Relative index (from the character after the method's opening brace) of
the brace at which the method scan stops, if any. -/
def methodBraceScan (s : String) : Option Nat :=
  methodScanAux s.data 0 1 false

/-- The brace scan that delimits a class body (`csharp_refactorer.js` lines
393-474): full mode tracking (string literal with backslash escape, block
comment, line comment); braces are counted only outside all three modes.
`fuel` bounds the recursion (each step consumes at least one character) so
the function stays kernel-reducible; state order: input, index, depth,
in-string, in-block-comment, in-line-comment, escape-next. -/
def classScanAux : Nat → List Char → Nat → Nat → Bool → Bool → Bool → Bool → Option Nat
  | 0, _, _, _, _, _, _, _ => none
  | _ + 1, [], _, _, _, _, _, _ => none
  | fuel + 1, c :: rest, i, depth, inStr, inCom, inLine, esc =>
    if esc then
      classScanAux fuel rest (i + 1) depth inStr inCom inLine false
    else if c = '\\' && inStr then
      classScanAux fuel rest (i + 1) depth inStr inCom inLine true
    else if c = '"' && !inCom && !inLine then
      classScanAux fuel rest (i + 1) depth (!inStr) inCom inLine false
    else if inStr then
      classScanAux fuel rest (i + 1) depth inStr inCom inLine false
    else if c = '/' && rest.head? = some '*' && !inLine then
      classScanAux fuel rest.tail (i + 2) depth inStr true inLine false
    else if c = '*' && rest.head? = some '/' && inCom then
      classScanAux fuel rest.tail (i + 2) depth inStr false inLine false
    else if c = '/' && rest.head? = some '/' && !inCom then
      classScanAux fuel rest.tail (i + 2) depth inStr inCom true false
    else if (c = '\n' || c = '\r') && inLine then
      classScanAux fuel rest (i + 1) depth inStr inCom false false
    else if !inCom && !inLine then
      let depth :=
        if c = '\x7b' then depth + 1 else if c = '\x7d' then depth - 1 else depth
      if depth = 0 then some i
      else classScanAux fuel rest (i + 1) depth inStr inCom inLine false
    else
      classScanAux fuel rest (i + 1) depth inStr inCom inLine false

/-- Relative index (from the character after the class's opening brace) of
the matching closing brace found by the class scan, if any. -/
def classBraceScan (s : String) : Option Nat :=
  classScanAux (s.data.length + 1) s.data 0 1 false false false false

/-- One call site extracted by `parseMethodCalls`
(`csharp_refactorer.js` lines 486-531): qualifier (or `this`) and callee. -/
structure Call where
  className : String
  methodName : String
deriving Repr, DecidableEq

/-- A node of the dependency tree (`csharp_refactorer.js` lines 556-557 and
569-575).  Circular nodes carry no `found`/`lineCount` fields in JS
(`undefined`, falsy); they are encoded here as `false`/`0`. -/
inductive DepNode where
  | node (className methodName : String) (circular found : Bool) (lineCount : Nat)
      (dependencies : List DepNode)
deriving Repr

/-- The `circular` flag of a node. -/
def DepNode.circular : DepNode → Bool
  | .node _ _ c _ _ _ => c

/-- The `found` flag of a node. -/
def DepNode.found : DepNode → Bool
  | .node _ _ _ f _ _ => f

/-- The children of a node. -/
def DepNode.dependencies : DepNode → List DepNode
  | .node _ _ _ _ _ d => d

/-- The inner recursion `buildNode` of `buildDependencyTree`
(`csharp_refactorer.js` lines 550-592).  `pmc` stands for
`this.parseMethodCalls` (the regex call-site extraction applied to a method
content string); `mbn` is `this.methodsByName`.  The JS `callStack` is a
shared mutable set with `add` before the children are built and `delete`
after; since a key is only added when absent and removed right after, this
equals passing `nodeKey :: stack` down to the children, as done here.
`fuel` is `maxDepth - currentDepth`; `fuel = 0` is the depth cut-off
(`currentDepth >= maxDepth` returns `null`, and the parent omits the
child). -/
def buildNode (mbn : List (String × List MethodInfo)) (pmc : String → List Call)
    (startClassName : String) : Nat → List String → String → String → Option DepNode
  | 0, _, _, _ => none
  | fuel + 1, stack, className, methodName =>
    let nodeKey := className ++ "." ++ methodName
    if stack.contains nodeKey then
      some (DepNode.node className methodName true false 0 [])
    else
      let methodInfo : Option MethodInfo :=
        if className = "this" || className = startClassName then
          (lookupAssoc mbn methodName).bind List.head?
        else none
      match methodInfo with
      | none => some (DepNode.node className methodName false false 0 [])
      | some mi =>
        let deps := (pmc mi.content).filterMap
          (fun call =>
            buildNode mbn pmc startClassName fuel (nodeKey :: stack)
              call.className call.methodName)
        some (DepNode.node className methodName false true mi.lineCount deps)

/-- `buildDependencyTree` (`csharp_refactorer.js` lines 540-596): the root
call of `buildNode` at depth 0 with an empty call stack.  The tool handler
(line 1322) passes the target class name (or the first parsed class name)
as `startClassName`. -/
def buildDependencyTree (mbn : List (String × List MethodInfo))
    (pmc : String → List Call) (startClassName startMethodName : String)
    (maxDepth : Nat) : Option DepNode :=
  buildNode mbn pmc startClassName maxDepth [] startClassName startMethodName

/-- One configuration document as parsed from JSON
(`csharp_refactorer.js` line 702).  `none` stands for an absent field; an
empty string is present but falsy, matching the JS truthiness tests.  The
file-reading and JSON-parsing failures are external to this model. -/
structure ConfigDoc where
  sourceFile : Option String
  targetClassName : Option String
  destinationFolder : Option String
  newNamespace : Option String
  mainPartialClassName : Option String
  mainInterface : Option String
  partialClasses : Option (List PartialClassConfig)
deriving Repr, DecidableEq

/-- JS truthiness of an optional string field. -/
def optTruthy : Option String → Bool
  | none => false
  | some s => s != ""

/-- The base structure taken from the first configuration document
(`csharp_refactorer.js` lines 706-714). -/
def baseOf (c : ConfigDoc) : JobConfig :=
  { sourceFile := c.sourceFile.getD ""
    targetClassName := if optTruthy c.targetClassName then c.targetClassName else none
    destinationFolder := c.destinationFolder.getD ""
    newNamespace := c.newNamespace.getD ""
    mainPartialClassName := c.mainPartialClassName.getD ""
    mainInterface := if optTruthy c.mainInterface then c.mainInterface.getD "" else ""
    partialClasses := [] }

/-- The per-file error wrapper of the catch block
(`csharp_refactorer.js` line 751); quoting characters elided. -/
def wrapErr (path msg : String) : String :=
  "Error processing configuration file " ++ path ++ ": " ++ msg

/-- The missing-required-key message (`csharp_refactorer.js` line 720). -/
def missingKeyMsg (path key : String) : String :=
  "Configuration file " ++ path ++ " is missing required key: " ++ key ++
  ". Value should not be empty."

/-- The partialClasses array contributed by one document
(`csharp_refactorer.js` lines 743-745): skipped when absent. -/
def pcsOf (c : ConfigDoc) : List PartialClassConfig :=
  c.partialClasses.getD []

/-- The merge loop of `mergeConfigurations` (`csharp_refactorer.js` lines
699-753): the first document sets the base and must supply the four
required keys; each later document's present-and-truthy same-named field
must equal the base value exactly; every document's partialClasses array is
appended in document order. -/
def mergeGo : Option JobConfig → List PartialClassConfig →
    List (String × ConfigDoc) → Except String (Option JobConfig × List PartialClassConfig)
  | merged, acc, [] => Except.ok (merged, acc)
  | none, acc, (p, c) :: rest =>
    let m := baseOf c
    if !(optTruthy c.sourceFile) then
      Except.error (wrapErr p (missingKeyMsg p "sourceFile"))
    else if !(optTruthy c.destinationFolder) then
      Except.error (wrapErr p (missingKeyMsg p "destinationFolder"))
    else if !(optTruthy c.newNamespace) then
      Except.error (wrapErr p (missingKeyMsg p "newNamespace"))
    else if !(optTruthy c.mainPartialClassName) then
      Except.error (wrapErr p (missingKeyMsg p "mainPartialClassName"))
    else mergeGo (some m) (acc ++ pcsOf c) rest
  | some m, acc, (p, c) :: rest =>
    if optTruthy c.sourceFile ∧ c.sourceFile ≠ some m.sourceFile then
      Except.error (wrapErr p ("Source file mismatch in " ++ p))
    else if optTruthy c.targetClassName ∧ c.targetClassName ≠ m.targetClassName then
      Except.error (wrapErr p ("Target class name mismatch in " ++ p))
    else if optTruthy c.destinationFolder ∧ c.destinationFolder ≠ some m.destinationFolder then
      Except.error (wrapErr p ("Destination folder mismatch in " ++ p))
    else if optTruthy c.newNamespace ∧ c.newNamespace ≠ some m.newNamespace then
      Except.error (wrapErr p ("Namespace mismatch in " ++ p))
    else if optTruthy c.mainPartialClassName ∧ c.mainPartialClassName ≠ some m.mainPartialClassName then
      Except.error (wrapErr p ("Main partial class name mismatch in " ++ p))
    else mergeGo (some m) (acc ++ pcsOf c) rest

/-- `fileNames.filter((name, index) => fileNames.indexOf(name) !== index)`
(`csharp_refactorer.js` line 757): the repeated occurrences of a list. -/
def duplicateNames (l : List String) : List String :=
  (((List.range l.length).zip l).filter (fun p => l.indexOf p.2 ≠ p.1)).map (fun p => p.2)

/-- `mergeConfigurations` (`csharp_refactorer.js` lines 691-764) on the
already-parsed documents, each tagged with its file path for messages. -/
def mergeConfigurations (docs : List (String × ConfigDoc)) : Except String JobConfig :=
  if docs.isEmpty then
    Except.error "At least one configuration file must be provided"
  else
    match mergeGo none [] docs with
    | Except.error e => Except.error e
    | Except.ok (none, _) => Except.error "At least one configuration file must be provided"
    | Except.ok (some m, acc) =>
      let fileNames := acc.map (fun pc => pc.fileName)
      let dups := duplicateNames fileNames
      if dups ≠ [] then
        Except.error ("Duplicate partial class file names found: " ++
          joinSep ", " dups.eraseDups)
      else Except.ok { m with partialClasses := acc }

/-- Specification-side description of what one `generatePartialClass` call
emits: for each requested name in order, the complete overload list of that
name from the by-name index (empty when the name is absent). -/
def emittedSpec (mbn : List (String × List MethodInfo)) (pc : PartialClassConfig) :
    List (String × MethodInfo) :=
  pc.methods.flatMap (fun n => ((lookupAssoc mbn n).getD []).map (fun mi => (n, mi)))

/-- A later configuration document conflicts with the merged base: exactly
the five guard conditions of the subsequent-document branch of `mergeGo`. -/
def ConflictsWith (m : JobConfig) (c : ConfigDoc) : Prop :=
  (optTruthy c.sourceFile ∧ c.sourceFile ≠ some m.sourceFile) ∨
  (optTruthy c.targetClassName ∧ c.targetClassName ≠ m.targetClassName) ∨
  (optTruthy c.destinationFolder ∧ c.destinationFolder ≠ some m.destinationFolder) ∨
  (optTruthy c.newNamespace ∧ c.newNamespace ≠ some m.newNamespace) ∨
  (optTruthy c.mainPartialClassName ∧ c.mainPartialClassName ≠ some m.mainPartialClassName)

instance (m : JobConfig) (c : ConfigDoc) : Decidable (ConflictsWith m c) := by
  unfold ConflictsWith
  infer_instance

/-- Concrete fixture: a method `A` whose body calls `B`. -/
def aInfo : MethodInfo :=
  { signature := "public void A()", content := "public void A()\n\x7b\n  B();\n\x7d"
    signatureKey := "publicvoidA()", lineCount := 4 }

/-- Concrete fixture: a method `B` whose body calls `A`. -/
def bInfo : MethodInfo :=
  { signature := "public void B()", content := "public void B()\n\x7b\n  A();\n\x7d"
    signatureKey := "publicvoidB()", lineCount := 4 }

/-- Concrete fixture: the by-name index of a class `C` with methods `A`
and `B`. -/
def mbnAB : List (String × List MethodInfo) := [("A", [aInfo]), ("B", [bInfo])]

/-- Concrete fixture: a parsed refactorer state for class `C`. -/
def st0 : RefState :=
  { usingStatements := ["using System;"]
    classDeclaration := "public class C"
    methodsByName := mbnAB
    sourceCode := "using System;\n\nnamespace Old\n\x7b\n    public class C\n    \x7b\n" ++
      aInfo.content ++ "\n" ++ bInfo.content ++ "\n    \x7d\n\x7d\n"
    oldNamespace := "Old"
    processedMethods := [] }

/-- Concrete fixture: call-site extraction realizing the mutual recursion
`A` calls `B` calls `A` (the role of `parseMethodCalls` on these two
bodies). -/
def pmcAB : String → List Call := fun c =>
  if c = aInfo.content then [{ className := "this", methodName := "B" }]
  else if c = bInfo.content then [{ className := "this", methodName := "A" }]
  else []

/-- Concrete fixture: a spec requesting `A` and `B`. -/
def specAB : PartialClassConfig :=
  { fileName := "C.P1.cs", interfaceName := "", methods := ["A", "B"] }

/-- Concrete fixture: a spec requesting only `A`. -/
def specA : PartialClassConfig :=
  { fileName := "C.P2.cs", interfaceName := "", methods := ["A"] }

/-- Concrete fixture: a spec requesting only `B`. -/
def specB : PartialClassConfig :=
  { fileName := "C.P2.cs", interfaceName := "", methods := ["B"] }

/-- Concrete fixture: a job whose two specs both request `A` (and cover all
method names). -/
def jobDup : JobConfig :=
  { sourceFile := "s.cs", targetClassName := none, destinationFolder := "out"
    newNamespace := "New", mainPartialClassName := "C.Core.cs", mainInterface := ""
    partialClasses := [specAB, specA] }

/-- Concrete fixture: a job whose two specs partition the method names. -/
def jobDisjoint : JobConfig :=
  { jobDup with
    partialClasses := [{ specAB with methods := ["A"] }, specB] }

/-- Concrete fixture: a job requesting a method name that does not exist. -/
def jobBad : JobConfig :=
  { jobDup with partialClasses := [{ specAB with methods := ["A", "B", "Nope"] }] }

/-- Concrete fixture for the §8 scenario: `GetUserAsync`. -/
def guaInfo : MethodInfo :=
  { signature := "public async Task<User> GetUserAsync(int userId)"
    content := "public async Task<User> GetUserAsync(int userId)\n\x7b\n  return null;\n\x7d"
    signatureKey := "publicasyncTask<User>GetUserAsync(intuserId)", lineCount := 4 }

/-- Concrete fixture for the §8 scenario: `SaveUserAsync`. -/
def suaInfo : MethodInfo :=
  { signature := "public async Task<bool> SaveUserAsync(User user)"
    content := "public async Task<bool> SaveUserAsync(User user)\n\x7b\n  return true;\n\x7d"
    signatureKey := "publicasyncTask<bool>SaveUserAsync(Useruser)", lineCount := 4 }

/-- Concrete fixture for the §8 scenario: `GetUser`. -/
def guInfo : MethodInfo :=
  { signature := "public User GetUser(int userId)"
    content := "public User GetUser(int userId)\n\x7b\n  return null;\n\x7d"
    signatureKey := "publicUserGetUser(intuserId)", lineCount := 4 }

/-- Concrete fixture for the §8 scenario: `DeleteUser`. -/
def duInfo : MethodInfo :=
  { signature := "public void DeleteUser(int userId)"
    content := "public void DeleteUser(int userId)\n\x7b\n  return;\n\x7d"
    signatureKey := "publicvoidDeleteUser(intuserId)", lineCount := 4 }

/-- Concrete fixture: the parsed state of the §8 scenario class. -/
def stUser : RefState :=
  { usingStatements := ["using System;"]
    classDeclaration := "public class X"
    methodsByName :=
      [("GetUserAsync", [guaInfo]), ("GetUser", [guInfo]),
       ("SaveUserAsync", [suaInfo]), ("DeleteUser", [duInfo])]
    sourceCode := "namespace Old\n\x7b\npublic class X\n\x7b\n" ++ guaInfo.content ++ "\n" ++
      guInfo.content ++ "\n" ++ suaInfo.content ++ "\n" ++ duInfo.content ++ "\n\x7d\n\x7d\n"
    oldNamespace := "Old"
    processedMethods := [] }

/-- Concrete fixture: the first §8 spec. -/
def specUser1 : PartialClassConfig :=
  { fileName := "X.UserManagement.cs", interfaceName := ""
    methods := ["GetUserAsync", "SaveUserAsync"] }

/-- Concrete fixture: the second §8 spec, repeating the first two names. -/
def specUser2 : PartialClassConfig :=
  { fileName := "X.Second.cs", interfaceName := ""
    methods := ["GetUserAsync", "SaveUserAsync", "DeleteUser"] }

/-- Concrete fixture: a method body (the text after the opening brace)
whose string literal contains an escaped quote and embedded unescaped
braces in close-then-open order. -/
def badBody : String := "\n  var s = \"\\\" \x7d \x7b\";\n\x7d"

/-- Concrete fixture: the body of the example of spec §8, with an escaped
quote added; the embedded braces are balanced and in open-then-close
order. -/
def specBody : String := "\n  var s = \"\\\" \x7b not a brace \x7d\";\n\x7d"

/-- Concrete fixture: a complete configuration document. -/
def doc1 : ConfigDoc :=
  { sourceFile := some "s.cs", targetClassName := none, destinationFolder := some "out"
    newNamespace := some "New", mainPartialClassName := some "C.Core.cs"
    mainInterface := none, partialClasses := some [specAB] }

/-- Concrete fixture: `doc1` with the required `sourceFile` missing. -/
def doc1NoSource : ConfigDoc := { doc1 with sourceFile := none }

/-- Concrete fixture: a second document contributing one disjoint spec. -/
def doc2 : ConfigDoc :=
  { doc1 with partialClasses := some [{ specB with fileName := "C.P9.cs" }] }

/-- C4 counterexample.  The claim asserts that the brace scan delimiting a
method counts braces only outside string literals, line comments and block
comments, and always returns the true method-closing brace.  For the body
`var s = "\" } {";` (escaped quote, embedded unescaped braces in
close-then-open order) the method scan stops at index 15 — the brace inside
the string literal — while the true closing brace is the final character,
index 21, which the mode-tracking class scan returns. -/
theorem C4_counterexample :
    methodBraceScan badBody = some 15 ∧
    classBraceScan badBody = some 21 ∧
    badBody.data.length = 22 ∧
    badBody.data.getD 15 ' ' = '\x7d' ∧
    (15 : Nat) ≠ 21 := by
  refine ⟨rfl, rfl, rfl, rfl, by decide⟩

/-- C4 amended: the class-body brace scan (`parseAllClasses`) counts braces
only outside string literals, line comments and block comments and returns
the true closing brace on both example bodies; the method-delimiting scan
(`parseCSharpMethods`) tracks only line comments, so braces inside string
literals count toward its depth, and it returns the true method-closing
brace only when the string-embedded braces are balanced in open-then-close
order, as in the example of the spec. -/
theorem C4_amended :
    methodBraceScan specBody = some (specBody.data.length - 1) ∧
    classBraceScan specBody = some (specBody.data.length - 1) ∧
    classBraceScan badBody = some (badBody.data.length - 1) ∧
    methodBraceScan badBody = some 15 ∧
    15 < badBody.data.length - 1 := by
  refine ⟨rfl, rfl, rfl, rfl, by decide⟩

/-- A node returned by `buildNode` is circular exactly when its key is on
the incoming active stack. -/
theorem buildNode_circular_iff (mbn : List (String × List MethodInfo))
    (pmc : String → List Call) (sc : String) (fuel : Nat) (stack : List String)
    (cn mn : String) (nd : DepNode)
    (h : buildNode mbn pmc sc fuel stack cn mn = some nd) :
    nd.circular = true ↔ stack.contains (cn ++ "." ++ mn) = true := by
  match fuel with
  | 0 => simp [buildNode] at h
  | fuel + 1 =>
    rw [buildNode] at h
    by_cases hc : stack.contains (cn ++ "." ++ mn) = true
    · simp only [hc, if_true] at h
      cases h
      simp only [DepNode.circular, true_iff]
      simpa using hc
    · simp only [Bool.not_eq_true] at hc
      simp only [hc, Bool.false_eq_true, if_false] at h
      cases hmi : (if cn = "this" || cn = sc then (lookupAssoc mbn mn).bind List.head? else none) with
      | none =>
        rw [hmi] at h
        cases h
        simp only [DepNode.circular, Bool.false_eq_true, false_iff]
        simpa using hc
      | some mi =>
        rw [hmi] at h
        cases h
        simp only [DepNode.circular, Bool.false_eq_true, false_iff]
        simpa using hc

/-- C6 counterexample.  The claim asserts that for mutually recursive
methods `A` and `B`, `buildDependencyTree` started at `A` with `maxDepth=5`
yields root `A`, child `B`, and a grandchild `A` marked circular with no
children.  Started from the class name `C` (what the tool handler passes),
the root key is `C.A` but recursive call sites resolve under the qualifier
`this`, so the grandchild `this.A` is not on the stack: it is not circular,
is expanded, and the cycle is only flagged one level deeper on `B`. -/
theorem C6_counterexample :
    buildDependencyTree mbnAB pmcAB "C" "A" 5 =
      some (DepNode.node "C" "A" false true 4
        [DepNode.node "this" "B" false true 4
          [DepNode.node "this" "A" false true 4
            [DepNode.node "this" "B" true false 0 []]]]) ∧
    (DepNode.node "this" "A" false true 4
        [DepNode.node "this" "B" true false 0 []]).circular = false ∧
    (DepNode.node "this" "A" false true 4
        [DepNode.node "this" "B" true false 0 []]).dependencies ≠ [] := by
  refine ⟨rfl, rfl, by simp [DepNode.dependencies]⟩

/-- C6 amended: when `buildDependencyTree` is started with class name
`this` (so that the root key coincides with the key under which recursive
call sites resolve), the mutual recursion `A` calls `B` calls `A` with
`maxDepth=5` yields exactly the claimed shape: root `A` not circular, child
`B` not circular, grandchild `A` circular with no children.  Started from
a named class, the cycle is flagged one level deeper (see the
counterexample).  In general, a node returned by `buildNode` is marked
circular exactly when its `className.methodName` key is already on the
active recursion stack that was passed in (siblings see the same stack, so
only ancestor recursion is flagged), and the root node is never itself
circular. -/
theorem C6_amended :
    (buildDependencyTree mbnAB pmcAB "this" "A" 5 =
      some (DepNode.node "this" "A" false true 4
        [DepNode.node "this" "B" false true 4
          [DepNode.node "this" "A" true false 0 []]])) ∧
    (∀ (mbn : List (String × List MethodInfo)) (pmc : String → List Call)
      (sc : String) (fuel : Nat) (stack : List String) (cn mn : String) (nd : DepNode),
      buildNode mbn pmc sc fuel stack cn mn = some nd →
      (nd.circular = true ↔ stack.contains (cn ++ "." ++ mn) = true)) ∧
    (∀ (mbn : List (String × List MethodInfo)) (pmc : String → List Call)
      (sc sm : String) (maxDepth : Nat) (nd : DepNode),
      buildDependencyTree mbn pmc sc sm maxDepth = some nd → nd.circular = false) := by
  refine ⟨rfl, buildNode_circular_iff, ?_⟩
  intro mbn pmc sc sm maxDepth nd h
  have hiff := buildNode_circular_iff mbn pmc sc maxDepth [] sc sm nd h
  simp only [List.contains, List.elem_nil] at hiff
  cases hcirc : nd.circular with
  | false => rfl
  | true => exact absurd (hiff.mp hcirc) (by simp)

/-- C6 witness: the theorem applied at a concrete circular call
(`q.r` already on the stack) and at a concrete root call. -/
theorem C6_witness :
    (buildNode mbnAB pmcAB "this" 1 ["q.r"] "q" "r" =
      some (DepNode.node "q" "r" true false 0 []) ∧
     ((DepNode.node "q" "r" true false 0 []).circular = true ↔
      (["q.r"].contains ("q" ++ "." ++ "r")) = true)) ∧
    ((buildDependencyTree mbnAB pmcAB "this" "A" 5).map DepNode.circular ≠ some true) := by
  constructor
  · exact ⟨rfl, C6_amended.2.1 mbnAB pmcAB "this" 1 ["q.r"] "q" "r" _ rfl⟩
  · have h := C6_amended.2.2 mbnAB pmcAB "this" "A" 5
    cases heq : buildDependencyTree mbnAB pmcAB "this" "A" 5 with
    | none => simp
    | some nd =>
      have := h nd heq
      simp [this]

/-- C2: the claim asserts that a method name requested by two specs of one
job appears only in the first spec output and is silently absent from the
second.  In `csharp_refactorer.js`, `findMethodByName` executes
`return methods;` (line 206) before the loop that skips already-processed
entries, so the second request emits the same methods again: running the §8
scenario, `GetUserAsync` and `SaveUserAsync` are emitted by the first spec
and emitted again by the second spec.  This contradicts the comments of the
source itself (line 208 `Return the first non-processed method`, line 271
`If method is already processed, skip it silently`) and the tool
description (`Methods already moved to partial classes will be ignored in
subsequent processing`). -/
theorem C2_duplicate_emitted_twice :
    (("GetUserAsync", guaInfo) ∈ (generatePartialClass stUser specUser1 "New").emitted) ∧
    (("SaveUserAsync", suaInfo) ∈ (generatePartialClass stUser specUser1 "New").emitted) ∧
    (("GetUserAsync", guaInfo) ∈
      (generatePartialClass (generatePartialClass stUser specUser1 "New").state
        specUser2 "New").emitted) ∧
    (("SaveUserAsync", suaInfo) ∈
      (generatePartialClass (generatePartialClass stUser specUser1 "New").state
        specUser2 "New").emitted) := by
  decide

/-- `setAdd` puts the new key in the set. -/
theorem setAdd_mem_self (s : List String) (k : String) : k ∈ setAdd s k := by
  unfold setAdd
  split
  · next h => simpa using h
  · simp

/-- `setAdd` keeps the old keys. -/
theorem setAdd_mem_of_mem (s : List String) (k k2 : String) (h : k2 ∈ s) :
    k2 ∈ setAdd s k := by
  unfold setAdd
  split
  · exact h
  · exact List.mem_append_left _ h

/-- The inner emission loop does not touch the by-name index. -/
theorem foldl_emitOne_methodsByName (n : String) :
    ∀ (l : List MethodInfo) (acc : EmitAcc),
      (l.foldl (emitOne n) acc).state.methodsByName = acc.state.methodsByName
  | [], _ => rfl
  | mi :: l, acc => by
    rw [List.foldl_cons, foldl_emitOne_methodsByName n l]
    rfl

/-- The inner emission loop traces exactly the entries of the list, in
order. -/
theorem foldl_emitOne_emitted (n : String) :
    ∀ (l : List MethodInfo) (acc : EmitAcc),
      (l.foldl (emitOne n) acc).emitted = acc.emitted ++ l.map (fun mi => (n, mi))
  | [], acc => by simp
  | mi :: l, acc => by
    rw [List.foldl_cons, foldl_emitOne_emitted n l]
    simp [emitOne]

/-- The inner emission loop only grows the processed set. -/
theorem foldl_emitOne_processed_mono (n : String) :
    ∀ (l : List MethodInfo) (acc : EmitAcc) (k : String),
      k ∈ acc.state.processedMethods →
      k ∈ (l.foldl (emitOne n) acc).state.processedMethods
  | [], _, _, h => h
  | mi :: l, acc, k, h =>
    foldl_emitOne_processed_mono n l _ k (setAdd_mem_of_mem _ _ _ h)

/-- The inner emission loop marks the signature key of every entry. -/
theorem foldl_emitOne_processed_all (n : String) :
    ∀ (l : List MethodInfo) (acc : EmitAcc) (mi : MethodInfo), mi ∈ l →
      mi.signatureKey ∈ (l.foldl (emitOne n) acc).state.processedMethods
  | mi0 :: l, acc, mi, h => by
    rcases List.mem_cons.mp h with h0 | h0
    · subst h0
      exact foldl_emitOne_processed_mono n l _ _ (setAdd_mem_self _ _)
    · exact foldl_emitOne_processed_all n l _ mi h0

/-- The inner emission loop removes each entry content from the remainder
buffer in order. -/
theorem foldl_emitOne_sourceCode (n : String) :
    ∀ (l : List MethodInfo) (acc : EmitAcc),
      (l.foldl (emitOne n) acc).state.sourceCode =
        l.foldl (fun s mi => replaceFirst s mi.content "") acc.state.sourceCode
  | [], _ => rfl
  | mi :: l, acc => by
    rw [List.foldl_cons, foldl_emitOne_sourceCode n l, List.foldl_cons]
    rfl

/-- `emitName` does not touch the by-name index. -/
theorem emitName_methodsByName (acc : EmitAcc) (n : String) :
    (emitName acc n).state.methodsByName = acc.state.methodsByName := by
  unfold emitName
  cases h : findMethodByName acc.state n with
  | none => rfl
  | some l => exact foldl_emitOne_methodsByName n l acc

/-- `emitName` traces the complete overload list of the requested name. -/
theorem emitName_emitted (acc : EmitAcc) (n : String) :
    (emitName acc n).emitted =
      acc.emitted ++
        ((lookupAssoc acc.state.methodsByName n).getD []).map (fun mi => (n, mi)) := by
  unfold emitName findMethodByName
  cases h : lookupAssoc acc.state.methodsByName n with
  | none => simp
  | some l => simp [foldl_emitOne_emitted n l acc]

/-- `emitName` only grows the processed set. -/
theorem emitName_processed_mono (acc : EmitAcc) (n k : String)
    (h : k ∈ acc.state.processedMethods) :
    k ∈ (emitName acc n).state.processedMethods := by
  unfold emitName
  cases hf : findMethodByName acc.state n with
  | none => exact h
  | some l => exact foldl_emitOne_processed_mono n l acc k h

/-- `emitName` rewrites the remainder buffer by the overload list of the
requested name. -/
theorem emitName_sourceCode (acc : EmitAcc) (n : String) :
    (emitName acc n).state.sourceCode =
      ((lookupAssoc acc.state.methodsByName n).getD []).foldl
        (fun s mi => replaceFirst s mi.content "") acc.state.sourceCode := by
  unfold emitName findMethodByName
  cases h : lookupAssoc acc.state.methodsByName n with
  | none => simp
  | some l => simp [foldl_emitOne_sourceCode n l acc]

/-- The outer emission loop does not touch the by-name index. -/
theorem foldl_emitName_methodsByName :
    ∀ (ms : List String) (acc : EmitAcc),
      (ms.foldl emitName acc).state.methodsByName = acc.state.methodsByName
  | [], _ => rfl
  | n :: ms, acc => by
    rw [List.foldl_cons, foldl_emitName_methodsByName ms, emitName_methodsByName]

/-- The outer emission loop traces, for each requested name in order, the
complete overload list of that name. -/
theorem foldl_emitName_emitted :
    ∀ (ms : List String) (acc : EmitAcc),
      (ms.foldl emitName acc).emitted =
        acc.emitted ++ ms.flatMap
          (fun n => ((lookupAssoc acc.state.methodsByName n).getD []).map (fun mi => (n, mi)))
  | [], acc => by simp
  | n :: ms, acc => by
    rw [List.foldl_cons, foldl_emitName_emitted ms, emitName_emitted,
      emitName_methodsByName, List.flatMap_cons, List.append_assoc]

/-- The outer emission loop only grows the processed set. -/
theorem foldl_emitName_processed_mono :
    ∀ (ms : List String) (acc : EmitAcc) (k : String),
      k ∈ acc.state.processedMethods →
      k ∈ (ms.foldl emitName acc).state.processedMethods
  | [], _, _, h => h
  | n :: ms, acc, k, h =>
    foldl_emitName_processed_mono ms _ k (emitName_processed_mono acc n k h)

/-- After the outer emission loop, the signature key of every traced entry
is in the processed set. -/
theorem foldl_emitName_processed_all :
    ∀ (ms : List String) (acc : EmitAcc) (x : String × MethodInfo),
      x ∈ ms.flatMap
        (fun n => ((lookupAssoc acc.state.methodsByName n).getD []).map (fun mi => (n, mi))) →
      x.2.signatureKey ∈ (ms.foldl emitName acc).state.processedMethods
  | n :: ms, acc, x, h => by
    rw [List.flatMap_cons, List.mem_append] at h
    rcases h with h0 | h0
    · rcases List.mem_map.mp h0 with ⟨mi, hmi, hx⟩
      subst hx
      rw [List.foldl_cons]
      refine foldl_emitName_processed_mono ms _ _ ?_
      unfold emitName findMethodByName
      cases hl : lookupAssoc acc.state.methodsByName n with
      | none => simp [hl] at hmi
      | some l =>
        rw [hl] at hmi
        exact foldl_emitOne_processed_all n l acc mi (by simpa using hmi)
    · rw [List.foldl_cons]
      refine foldl_emitName_processed_all ms (emitName acc n) x ?_
      rw [emitName_methodsByName]
      exact h0

/-- The outer emission loop removes each traced entry content from the
remainder buffer, in emission order. -/
theorem foldl_emitName_sourceCode :
    ∀ (ms : List String) (acc : EmitAcc),
      (ms.foldl emitName acc).state.sourceCode =
        (ms.flatMap
          (fun n => ((lookupAssoc acc.state.methodsByName n).getD []).map (fun mi => (n, mi)))).foldl
          (fun s x => replaceFirst s x.2.content "") acc.state.sourceCode
  | [], _ => by simp
  | n :: ms, acc => by
    rw [List.foldl_cons, foldl_emitName_sourceCode ms, emitName_methodsByName,
      emitName_sourceCode, List.flatMap_cons, List.foldl_append, List.foldl_map]

/-- `generatePartialClass` leaves the by-name index unchanged. -/
theorem generatePartialClass_methodsByName (st : RefState) (cfg : PartialClassConfig)
    (ns : String) :
    (generatePartialClass st cfg ns).state.methodsByName = st.methodsByName := by
  simp only [generatePartialClass]
  rw [foldl_emitName_methodsByName]

/-- The emission trace of `generatePartialClass` is `emittedSpec`. -/
theorem generatePartialClass_emitted (st : RefState) (cfg : PartialClassConfig)
    (ns : String) :
    (generatePartialClass st cfg ns).emitted = emittedSpec st.methodsByName cfg := by
  simp only [generatePartialClass]
  rw [foldl_emitName_emitted]
  rfl

/-- `generatePartialClass` only grows the processed set. -/
theorem generatePartialClass_processed_mono (st : RefState) (cfg : PartialClassConfig)
    (ns : String) (k : String) (h : k ∈ st.processedMethods) :
    k ∈ (generatePartialClass st cfg ns).state.processedMethods := by
  simp only [generatePartialClass]
  exact foldl_emitName_processed_mono _ _ _ h

/-- After `generatePartialClass`, every emitted signature key is in the
processed set. -/
theorem generatePartialClass_processed_all (st : RefState) (cfg : PartialClassConfig)
    (ns : String) (x : String × MethodInfo) (h : x ∈ emittedSpec st.methodsByName cfg) :
    x.2.signatureKey ∈ (generatePartialClass st cfg ns).state.processedMethods := by
  simp only [generatePartialClass]
  exact foldl_emitName_processed_all _ _ _ h

/-- `generatePartialClass` removes each emitted entry content from the
remainder buffer, in emission order. -/
theorem generatePartialClass_sourceCode (st : RefState) (cfg : PartialClassConfig)
    (ns : String) :
    (generatePartialClass st cfg ns).state.sourceCode =
      (emittedSpec st.methodsByName cfg).foldl
        (fun s x => replaceFirst s x.2.content "") st.sourceCode := by
  simp only [generatePartialClass]
  rw [foldl_emitName_sourceCode]
  rfl

/-- `generatePartialClass` errors exactly on content over 5000 lines, with
the `FileTooLarge` message built from its own emission trace. -/
theorem generatePartialClass_result (st : RefState) (cfg : PartialClassConfig)
    (ns : String) :
    (generatePartialClass st cfg ns).result =
      if countLines (generatePartialClass st cfg ns).content > 5000 then
        Except.error (tooLargeMessage cfg.fileName
          (countLines (generatePartialClass st cfg ns).content)
          (generatePartialClass st cfg ns).totalLines
          (generatePartialClass st cfg ns).emitted)
      else Except.ok (generatePartialClass st cfg ns).content := by
  rfl

/-- C10: in `generatePartialClass`, whenever a requested name resolves in
the by-name index, the complete overload list of that name is emitted into
this one spec (the trace equals `emittedSpec`, which concatenates the whole
lists of all requested names in order), each emitted entry signature key is
added to the processed set, each emitted entry content is removed from the
remainder buffer in order, and the by-name index itself is unchanged. -/
theorem C10_whole_overload_set_consumed (st : RefState) (cfg : PartialClassConfig)
    (ns : String) :
    (generatePartialClass st cfg ns).emitted = emittedSpec st.methodsByName cfg ∧
    (∀ x ∈ (generatePartialClass st cfg ns).emitted,
      x.2.signatureKey ∈ (generatePartialClass st cfg ns).state.processedMethods) ∧
    (generatePartialClass st cfg ns).state.sourceCode =
      ((generatePartialClass st cfg ns).emitted).foldl
        (fun s x => replaceFirst s x.2.content "") st.sourceCode ∧
    (generatePartialClass st cfg ns).state.methodsByName = st.methodsByName := by
  refine ⟨generatePartialClass_emitted st cfg ns, ?_, ?_, generatePartialClass_methodsByName st cfg ns⟩
  · intro x hx
    rw [generatePartialClass_emitted] at hx
    exact generatePartialClass_processed_all st cfg ns x hx
  · rw [generatePartialClass_emitted]
    exact generatePartialClass_sourceCode st cfg ns

/-- C10 witness: the theorem applied at a concrete state and spec; both
overload-set facts evaluated on the result. -/
theorem C10_witness :
    (generatePartialClass st0 specAB "New").emitted = emittedSpec st0.methodsByName specAB ∧
    aInfo.signatureKey ∈ (generatePartialClass st0 specAB "New").state.processedMethods := by
  refine ⟨(C10_whole_overload_set_consumed st0 specAB "New").1, ?_⟩
  exact (C10_whole_overload_set_consumed st0 specAB "New").2.1 ("A", aInfo) (by decide)

/-- A guarded appending fold only appends to its accumulator. -/
theorem foldl_guard_exists {β γ : Type} (p : β → Bool) (f : β → γ) :
    ∀ (l : List β) (acc : List γ),
      ∃ t, l.foldl (fun a b => if p b then a ++ [f b] else a) acc = acc ++ t
  | [], acc => ⟨[], by simp⟩
  | b :: l, acc => by
    rw [List.foldl_cons]
    by_cases hb : p b
    · rcases foldl_guard_exists p f l (acc ++ [f b]) with ⟨t, ht⟩
      refine ⟨[f b] ++ t, ?_⟩
      rw [if_pos hb] at *
      rw [ht, List.append_assoc]
    · rcases foldl_guard_exists p f l acc with ⟨t, ht⟩
      refine ⟨t, ?_⟩
      rw [if_neg hb]
      exact ht

/-- A guarded appending fold picks up every list element whose guard
holds. -/
theorem foldl_guard_mem {β γ : Type} (p : β → Bool) (f : β → γ) :
    ∀ (l : List β) (acc : List γ) (b : β), b ∈ l → p b = true →
      f b ∈ l.foldl (fun a b => if p b then a ++ [f b] else a) acc
  | b0 :: l, acc, b, hmem, hp => by
    rw [List.foldl_cons]
    rcases List.mem_cons.mp hmem with h0 | h0
    · subst h0
      rw [if_pos hp]
      rcases foldl_guard_exists p f l (acc ++ [f b]) with ⟨t, ht⟩
      rw [ht, List.append_assoc]
      exact List.mem_append_right _ (List.mem_append_left _ (List.mem_singleton.mpr rfl))
    · exact foldl_guard_mem p f l _ b h0 hp

/-- `innerNotFound` only appends. -/
theorem innerNotFound_exists (st : RefState) (pc : PartialClassConfig) (acc : List String) :
    ∃ t, innerNotFound st pc acc = acc ++ t :=
  foldl_guard_exists (fun m => (lookupAssoc st.methodsByName m).isNone)
    (notFoundMsg pc) pc.methods acc

/-- `innerNotFound` reports every requested-but-absent name of the spec. -/
theorem innerNotFound_mem (st : RefState) (pc : PartialClassConfig) (acc : List String)
    (m : String) (hm : m ∈ pc.methods) (h : lookupAssoc st.methodsByName m = none) :
    notFoundMsg pc m ∈ innerNotFound st pc acc :=
  foldl_guard_mem (fun m => (lookupAssoc st.methodsByName m).isNone)
    (notFoundMsg pc) pc.methods acc m hm (by simp [h])

/-- The outer validation loop only appends. -/
theorem collectNotFound_go_exists (st : RefState) :
    ∀ (pcs : List PartialClassConfig) (acc : List String),
      ∃ t, pcs.foldl (fun acc pc => innerNotFound st pc acc) acc = acc ++ t
  | [], acc => ⟨[], by simp⟩
  | pc :: pcs, acc => by
    rw [List.foldl_cons]
    rcases innerNotFound_exists st pc acc with ⟨t1, ht1⟩
    rcases collectNotFound_go_exists st pcs (innerNotFound st pc acc) with ⟨t2, ht2⟩
    exact ⟨t1 ++ t2, by rw [ht2, ht1, List.append_assoc]⟩

/-- `collectNotFound` reports every requested-but-absent name. -/
theorem collectNotFound_mem (st : RefState) (pcs : List PartialClassConfig)
    (pc : PartialClassConfig) (m : String) (hpc : pc ∈ pcs) (hm : m ∈ pc.methods)
    (h : lookupAssoc st.methodsByName m = none) :
    notFoundMsg pc m ∈ collectNotFound st pcs := by
  unfold collectNotFound
  suffices hgen : ∀ (l : List PartialClassConfig) (acc : List String), pc ∈ l →
      notFoundMsg pc m ∈ l.foldl (fun acc pc => innerNotFound st pc acc) acc by
    exact hgen pcs [] hpc
  intro l
  induction l with
  | nil => intro acc hfalse; exact absurd hfalse (List.not_mem_nil _)
  | cons pc0 l ih =>
    intro acc hmem
    rw [List.foldl_cons]
    rcases List.mem_cons.mp hmem with h0 | h0
    · subst h0
      rcases collectNotFound_go_exists st l (innerNotFound st pc acc) with ⟨t, ht⟩
      rw [ht]
      exact List.mem_append_left _ (innerNotFound_mem st pc acc m hm h)
    · exact ih _ h0

/-- Membership in the flat requested-name list. -/
theorem mem_requestedNames (pcs : List PartialClassConfig) (x : String) :
    x ∈ requestedNames pcs ↔ ∃ pc ∈ pcs, x ∈ pc.methods := by
  unfold requestedNames
  suffices hgen : ∀ (l : List PartialClassConfig) (acc : List String),
      x ∈ l.foldl (fun acc pc => acc ++ pc.methods) acc ↔ x ∈ acc ∨ ∃ pc ∈ l, x ∈ pc.methods by
    rw [hgen pcs []]
    simp
  intro l
  induction l with
  | nil => intro acc; simp
  | cons pc0 l ih =>
    intro acc
    rw [List.foldl_cons, ih]
    simp only [List.mem_append, List.mem_cons]
    constructor
    · rintro ((h | h) | ⟨pc, hpc, hx⟩)
      · exact Or.inl h
      · exact Or.inr ⟨pc0, Or.inl rfl, h⟩
      · exact Or.inr ⟨pc, Or.inr hpc, hx⟩
    · rintro (h | ⟨pc, (hpc | hpc), hx⟩)
      · exact Or.inl (Or.inl h)
      · exact Or.inl (Or.inr (hpc ▸ hx))
      · exact Or.inr ⟨pc, hpc, hx⟩

/-- The validation-error list is nonempty whenever some requested name is
absent from the index. -/
theorem validationErrors_ne_nil_of_notFound (st : RefState) (pcs : List PartialClassConfig)
    (h : ∃ pc ∈ pcs, ∃ m ∈ pc.methods, lookupAssoc st.methodsByName m = none) :
    validationErrors st pcs ≠ [] := by
  rcases h with ⟨pc, hpc, m, hm, hlook⟩
  have hmem : notFoundMsg pc m ∈ collectNotFound st pcs :=
    collectNotFound_mem st pcs pc m hpc hm hlook
  unfold validationErrors
  split
  · intro hfalse
    rcases List.append_eq_nil.mp hfalse with ⟨h1, _⟩
    rw [h1] at hmem
    exact List.not_mem_nil _ hmem
  · exact List.ne_nil_of_mem hmem

/-- The validation-error list is nonempty whenever some parsed method name
is requested by no spec. -/
theorem validationErrors_ne_nil_of_uncovered (st : RefState) (pcs : List PartialClassConfig)
    (h : ∃ nm ∈ st.methodsByName, ∀ pc ∈ pcs, nm.1 ∉ pc.methods) :
    validationErrors st pcs ≠ [] := by
  rcases h with ⟨nm, hnm, hnone⟩
  have hmiss : nm.1 ∈ missingFromConfig st pcs := by
    unfold missingFromConfig
    refine List.mem_filter.mpr ⟨List.mem_map.mpr ⟨nm, hnm, rfl⟩, ?_⟩
    simp only [Bool.not_eq_eq_eq_not, Bool.not_true, ← Bool.not_eq_true]
    intro hcon
    have : nm.1 ∈ requestedNames pcs := by simpa using hcon
    rcases (mem_requestedNames pcs nm.1).mp this with ⟨pc, hpc, hx⟩
    exact hnone pc hpc hx
  unfold validationErrors
  rw [if_pos (by exact fun hfalse => (hfalse ▸ List.not_mem_nil _) hmiss :
    missingFromConfig st pcs ≠ [])]
  intro hfalse
  rcases List.append_eq_nil.mp hfalse with ⟨_, h2⟩
  exact (by simp at h2 : False)

/-- A validation failure aborts `processSplit` before any generation. -/
theorem processSplit_validation_fail (st : RefState) (cfg : JobConfig)
    (h : validationErrors st cfg.partialClasses ≠ []) :
    processSplit st cfg =
      { state := st, effects := [FsEffect.mkdirRecursive cfg.destinationFolder],
        emittedLists := [],
        result := Except.error (validationMessage st (validationErrors st cfg.partialClasses)) } := by
  unfold processSplit
  rw [if_pos h]

/-- C3: a split job that requests a method name absent from the parsed
class, or leaves some parsed method assigned to no spec, fails validation:
the result is an error and no file-write effect is performed (neither a
partial file nor the core file). -/
theorem C3_validation_failure_writes_nothing (st : RefState) (cfg : JobConfig)
    (h : (∃ pc ∈ cfg.partialClasses, ∃ m ∈ pc.methods,
            lookupAssoc st.methodsByName m = none) ∨
         (∃ nm ∈ st.methodsByName, ∀ pc ∈ cfg.partialClasses, nm.1 ∉ pc.methods)) :
    (∃ e, (processSplit st cfg).result = Except.error e) ∧
    ∀ eff ∈ (processSplit st cfg).effects, eff.isWrite = false := by
  have herr : validationErrors st cfg.partialClasses ≠ [] := by
    rcases h with h | h
    · exact validationErrors_ne_nil_of_notFound st cfg.partialClasses h
    · exact validationErrors_ne_nil_of_uncovered st cfg.partialClasses h
  rw [processSplit_validation_fail st cfg herr]
  refine ⟨⟨_, rfl⟩, ?_⟩
  intro eff heff
  have : eff = FsEffect.mkdirRecursive cfg.destinationFolder := by simpa using heff
  subst this
  rfl

/-- C3 witness: the theorem applied to a job that requests the nonexistent
method `Nope`. -/
theorem C3_witness :
    ((∃ pc ∈ jobBad.partialClasses, ∃ m ∈ pc.methods,
        lookupAssoc st0.methodsByName m = none) ∨
     (∃ nm ∈ st0.methodsByName, ∀ pc ∈ jobBad.partialClasses, nm.1 ∉ pc.methods)) ∧
    ((∃ e, (processSplit st0 jobBad).result = Except.error e) ∧
     ∀ eff ∈ (processSplit st0 jobBad).effects, eff.isWrite = false) :=
  ⟨by decide, C3_validation_failure_writes_nothing st0 jobBad (by decide)⟩

/-- C9: the destination-folder creation effect is the first effect of every
split job, before validation runs; a job that fails validation has still
performed it, while writing no file. -/
theorem C9_mkdir_before_validation (st : RefState) (cfg : JobConfig) :
    (processSplit st cfg).effects.head? =
      some (FsEffect.mkdirRecursive cfg.destinationFolder) ∧
    (validationErrors st cfg.partialClasses ≠ [] →
      (∃ e, (processSplit st cfg).result = Except.error e) ∧
      ∀ eff ∈ (processSplit st cfg).effects, eff.isWrite = false) := by
  constructor
  · simp only [processSplit]
    split
    · rfl
    · cases hgl : (genLoop st cfg.partialClasses cfg.newNamespace cfg.destinationFolder).2.2.2 with
      | none => simp only [hgl]; rfl
      | some e => simp only [hgl]; rfl
  · intro h
    rw [processSplit_validation_fail st cfg h]
    refine ⟨⟨_, rfl⟩, ?_⟩
    intro eff heff
    have : eff = FsEffect.mkdirRecursive cfg.destinationFolder := by simpa using heff
    subst this
    rfl

/-- C9 witness: the theorem applied to the invalid job `jobBad`: the
directory-creation effect happened although validation failed and nothing
was written. -/
theorem C9_witness :
    (processSplit st0 jobBad).effects.head? =
      some (FsEffect.mkdirRecursive jobBad.destinationFolder) ∧
    ((∃ e, (processSplit st0 jobBad).result = Except.error e) ∧
     ∀ eff ∈ (processSplit st0 jobBad).effects, eff.isWrite = false) :=
  ⟨(C9_mkdir_before_validation st0 jobBad).1,
   (C9_mkdir_before_validation st0 jobBad).2 (by decide)⟩

/-- C5: `generatePartialClass` raises the `FileTooLarge` error exactly when
the generated content exceeds 5000 lines; the error message carries the
per-method line-count breakdown of the emitted methods, and the generation
loop then writes nothing for that spec (or after it).  At most 5000 lines,
no error is raised and the file is written. -/
theorem C5_line_limit_enforced (st : RefState) (pc : PartialClassConfig)
    (rest : List PartialClassConfig) (ns dest : String) :
    (countLines (generatePartialClass st pc ns).content > 5000 →
      (generatePartialClass st pc ns).result =
        Except.error (tooLargeMessage pc.fileName
          (countLines (generatePartialClass st pc ns).content)
          (generatePartialClass st pc ns).totalLines
          (generatePartialClass st pc ns).emitted) ∧
      (∃ pre post, tooLargeMessage pc.fileName
          (countLines (generatePartialClass st pc ns).content)
          (generatePartialClass st pc ns).totalLines
          (generatePartialClass st pc ns).emitted =
        (pre ++ joinSep "\n"
          ((generatePartialClass st pc ns).emitted.map breakdownLine)) ++ post) ∧
      (genLoop st (pc :: rest) ns dest).2.1 = []) ∧
    (countLines (generatePartialClass st pc ns).content ≤ 5000 →
      (generatePartialClass st pc ns).result =
        Except.ok (generatePartialClass st pc ns).content ∧
      (genLoop st (pc :: rest) ns dest).2.1.head? =
        some (FsEffect.writeFile (pathJoin dest pc.fileName)
          (generatePartialClass st pc ns).content)) := by
  constructor
  · intro h
    have hres := generatePartialClass_result st pc ns
    rw [if_pos h] at hres
    refine ⟨hres, ⟨_, _, rfl⟩, ?_⟩
    simp only [genLoop, hres]
  · intro h
    have hres := generatePartialClass_result st pc ns
    rw [if_neg (by omega)] at hres
    refine ⟨hres, ?_⟩
    simp only [genLoop, hres]
    rw [if_neg (by omega)]
    rfl

set_option maxRecDepth 100000 in
/-- C5 witness: the theorem applied at a concrete small job; the content is
within the limit, no error is raised, and the file is written. -/
theorem C5_witness :
    countLines (generatePartialClass st0 specAB "New").content ≤ 5000 ∧
    ((generatePartialClass st0 specAB "New").result =
      Except.ok (generatePartialClass st0 specAB "New").content ∧
     (genLoop st0 [specAB] "New" "out").2.1.head? =
       some (FsEffect.writeFile (pathJoin "out" specAB.fileName)
         (generatePartialClass st0 specAB "New").content)) :=
  ⟨by decide, (C5_line_limit_enforced st0 specAB [] "New" "out").2 (by decide)⟩

/-- Association lookup on a duplicate-free-key list finds each entry. -/
theorem lookupAssoc_of_nodup {α : Type} (m : List (String × α))
    (hnodup : (m.map Prod.fst).Nodup) (nm : String × α) (hmem : nm ∈ m) :
    lookupAssoc m nm.1 = some nm.2 := by
  induction m with
  | nil => exact absurd hmem (List.not_mem_nil _)
  | cons a m ih =>
    rcases List.mem_cons.mp hmem with h0 | h0
    · subst h0
      simp [lookupAssoc, List.find?]
    · have ha : a.1 ≠ nm.1 := by
        intro he
        have : nm.1 ∈ m.map Prod.fst := List.mem_map.mpr ⟨nm, h0, rfl⟩
        rw [List.map_cons, List.nodup_cons] at hnodup
        exact hnodup.1 (he ▸ this)
      have ih2 := ih (by rw [List.map_cons, List.nodup_cons] at hnodup; exact hnodup.2) h0
      simp only [lookupAssoc, List.find?] at ih2 ⊢
      simp only [decide_eq_false ha]
      exact ih2

/-- Building an emitted pair of `emittedSpec`. -/
theorem emittedSpec_mem_of (mbn : List (String × List MethodInfo))
    (pc : PartialClassConfig) (n : String) (mi : MethodInfo)
    (hn : n ∈ pc.methods) (hl : mi ∈ (lookupAssoc mbn n).getD []) :
    (n, mi) ∈ emittedSpec mbn pc := by
  unfold emittedSpec
  exact List.mem_flatMap.mpr ⟨n, hn, List.mem_map.mpr ⟨mi, hl, rfl⟩⟩

/-- Every emitted pair of `emittedSpec` carries a requested name. -/
theorem emittedSpec_fst_mem (mbn : List (String × List MethodInfo))
    (pc : PartialClassConfig) (x : String × MethodInfo)
    (h : x ∈ emittedSpec mbn pc) : x.1 ∈ pc.methods := by
  unfold emittedSpec at h
  rcases List.mem_flatMap.mp h with ⟨n, hn, hmap⟩
  rcases List.mem_map.mp hmap with ⟨mi, _, hx⟩
  rw [← hx]
  exact hn

/-- Characterization of a generation loop that ran to completion: the
per-spec emission traces are `emittedSpec` of the original index, the index
is unchanged, and every emitted signature key of every spec is in the final
processed set. -/
theorem genLoop_ok_spec :
    ∀ (pcs : List PartialClassConfig) (st : RefState) (ns dest : String),
      (genLoop st pcs ns dest).2.2.2 = none →
      (genLoop st pcs ns dest).2.2.1 = pcs.map (emittedSpec st.methodsByName) ∧
      (genLoop st pcs ns dest).1.methodsByName = st.methodsByName ∧
      (∀ k ∈ st.processedMethods, k ∈ (genLoop st pcs ns dest).1.processedMethods) ∧
      (∀ pc ∈ pcs, ∀ x ∈ emittedSpec st.methodsByName pc,
        x.2.signatureKey ∈ (genLoop st pcs ns dest).1.processedMethods)
  | [], st, ns, dest, _ => by
    refine ⟨rfl, rfl, fun k hk => hk, ?_⟩
    intro pc hpc
    exact absurd hpc (List.not_mem_nil _)
  | pc :: rest, st, ns, dest, h => by
    have hres := generatePartialClass_result st pc ns
    by_cases hbig : countLines (generatePartialClass st pc ns).content > 5000
    · rw [if_pos hbig] at hres
      simp only [genLoop, hres] at h
      exact Option.noConfusion h
    · rw [if_neg hbig] at hres
      have hred : genLoop st (pc :: rest) ns dest =
          ((genLoop (generatePartialClass st pc ns).state rest ns dest).1,
           FsEffect.writeFile (pathJoin dest pc.fileName) (generatePartialClass st pc ns).content ::
             (genLoop (generatePartialClass st pc ns).state rest ns dest).2.1,
           (generatePartialClass st pc ns).emitted ::
             (genLoop (generatePartialClass st pc ns).state rest ns dest).2.2.1,
           (genLoop (generatePartialClass st pc ns).state rest ns dest).2.2.2) := by
        simp only [genLoop, hres]
        rw [if_neg (by omega)]
      rw [hred] at h ⊢
      simp only at h ⊢
      have hmbn := generatePartialClass_methodsByName st pc ns
      have ih := genLoop_ok_spec rest (generatePartialClass st pc ns).state ns dest h
      rw [hmbn] at ih
      refine ⟨?_, ih.2.1, ?_, ?_⟩
      · rw [List.map_cons, ih.1, generatePartialClass_emitted]
      · intro k hk
        exact ih.2.2.1 k (generatePartialClass_processed_mono st pc ns k hk)
      · intro pc0 hpc0 x hx
        rcases List.mem_cons.mp hpc0 with h0 | h0
        · subst h0
          exact ih.2.2.1 _ (generatePartialClass_processed_all st pc0 ns x hx)
        · exact ih.2.2.2 pc0 h0 x hx

/-- Characterization of a split job that returned success: validation
passed, the generation loop completed, and the outcome components are the
loop components. -/
theorem processSplit_ok_spec (st : RefState) (cfg : JobConfig)
    (hok : (processSplit st cfg).result = Except.ok ()) :
    validationErrors st cfg.partialClasses = [] ∧
    (processSplit st cfg).emittedLists =
      cfg.partialClasses.map (emittedSpec st.methodsByName) ∧
    (processSplit st cfg).state.methodsByName = st.methodsByName ∧
    (∀ pc ∈ cfg.partialClasses, ∀ x ∈ emittedSpec st.methodsByName pc,
      x.2.signatureKey ∈ (processSplit st cfg).state.processedMethods) := by
  by_cases herr : validationErrors st cfg.partialClasses ≠ []
  · rw [processSplit_validation_fail st cfg herr] at hok
    exact absurd hok (by simp)
  · have herr2 : validationErrors st cfg.partialClasses = [] := by
      by_contra hc
      exact herr hc
    cases hgl : (genLoop st cfg.partialClasses cfg.newNamespace cfg.destinationFolder).2.2.2 with
    | some e =>
      have : (processSplit st cfg).result = Except.error e := by
        simp only [processSplit]
        rw [if_neg herr]
        simp only [hgl]
      rw [this] at hok
      exact absurd hok (by simp)
    | none =>
      have hgls := genLoop_ok_spec cfg.partialClasses st cfg.newNamespace cfg.destinationFolder hgl
      have hred : (processSplit st cfg).emittedLists =
          (genLoop st cfg.partialClasses cfg.newNamespace cfg.destinationFolder).2.2.1 ∧
          (processSplit st cfg).state =
          (genLoop st cfg.partialClasses cfg.newNamespace cfg.destinationFolder).1 := by
        constructor <;> (simp only [processSplit]; rw [if_neg herr]; simp only [hgl])
      refine ⟨herr2, ?_, ?_, ?_⟩
      · rw [hred.1, hgls.1]
      · rw [hred.2, hgls.2.1]
      · intro pc hpc x hx
        rw [hred.2]
        exact hgls.2.2.2 pc hpc x hx

/-- The unprocessed-methods report is empty when every entry key of every
name is processed. -/
theorem unprocessedNames_eq_nil (st : RefState)
    (h : ∀ nm ∈ st.methodsByName, ∀ mi ∈ nm.2,
      st.processedMethods.contains mi.signatureKey = true) :
    unprocessedNames st = [] := by
  unfold unprocessedNames
  rw [List.filter_eq_nil_iff.mpr, List.map_nil]
  intro nm hnm
  simp only [Bool.not_eq_true]
  rw [List.any_eq_false]
  intro mi hmi
  simpa using h nm hnm mi hmi

set_option maxRecDepth 100000 in
/-- C1 counterexample.  The claim asserts that a job whose specs together
enumerate every method name distributes every method with no method in two
different non-core files.  In the concrete job `jobDup` both specs request
`A` while all names are covered, the job succeeds, and method `A` is
emitted into both output files. -/
theorem C1_counterexample :
    (∀ nm ∈ st0.methodsByName, ∃ pc ∈ jobDup.partialClasses, nm.1 ∈ pc.methods) ∧
    (processSplit st0 jobDup).result = Except.ok () ∧
    (processSplit st0 jobDup).emittedLists.length = 2 ∧
    ("A", aInfo) ∈ (processSplit st0 jobDup).emittedLists.getD 0 [] ∧
    ("A", aInfo) ∈ (processSplit st0 jobDup).emittedLists.getD 1 [] := by
  decide

/-- C1 amended: for a completed split job (distinct index keys, specs with
pairwise-disjoint method-name lists that together enumerate every name, and
a success result), every method entry of the parsed class is emitted into
some non-core file, no emitted pair appears in two different non-core
files, and the unprocessed-methods report — what remains for the core
file — is empty. -/
theorem C1_round_trip_amended (st : RefState) (cfg : JobConfig)
    (hnodup : (st.methodsByName.map Prod.fst).Nodup)
    (hdisj : cfg.partialClasses.Pairwise (fun p q => ∀ n, n ∈ p.methods → n ∉ q.methods))
    (hcover : ∀ nm ∈ st.methodsByName, ∃ pc ∈ cfg.partialClasses, nm.1 ∈ pc.methods)
    (hok : (processSplit st cfg).result = Except.ok ()) :
    (∀ nm ∈ st.methodsByName, ∀ mi ∈ nm.2,
      ∃ em ∈ (processSplit st cfg).emittedLists, (nm.1, mi) ∈ em) ∧
    (processSplit st cfg).emittedLists.Pairwise (fun e1 e2 => ∀ x, x ∈ e1 → x ∉ e2) ∧
    unprocessedNames (processSplit st cfg).state = [] := by
  obtain ⟨-, hlists, hmbn, hproc⟩ := processSplit_ok_spec st cfg hok
  refine ⟨?_, ?_, ?_⟩
  · intro nm hnm mi hmi
    rcases hcover nm hnm with ⟨pc, hpc, hname⟩
    refine ⟨emittedSpec st.methodsByName pc, ?_, ?_⟩
    · rw [hlists]
      exact List.mem_map.mpr ⟨pc, hpc, rfl⟩
    · refine emittedSpec_mem_of st.methodsByName pc nm.1 mi hname ?_
      rw [lookupAssoc_of_nodup st.methodsByName hnodup nm hnm]
      exact hmi
  · rw [hlists, List.pairwise_map]
    refine hdisj.imp ?_
    intro p q hd x hxp hxq
    exact hd x.1 (emittedSpec_fst_mem _ p x hxp) (emittedSpec_fst_mem _ q x hxq)
  · refine unprocessedNames_eq_nil _ ?_
    intro nm hnm mi hmi
    rw [hmbn] at hnm
    rcases hcover nm hnm with ⟨pc, hpc, hname⟩
    have hx : (nm.1, mi) ∈ emittedSpec st.methodsByName pc := by
      refine emittedSpec_mem_of st.methodsByName pc nm.1 mi hname ?_
      rw [lookupAssoc_of_nodup st.methodsByName hnodup nm hnm]
      exact hmi
    have := hproc pc hpc (nm.1, mi) hx
    simpa using this

set_option maxRecDepth 100000 in
/-- C1 witness: the amended theorem applied to a concrete job whose two
specs partition the method names. -/
theorem C1_witness :
    ((st0.methodsByName.map Prod.fst).Nodup ∧
     jobDisjoint.partialClasses.Pairwise (fun p q => ∀ n, n ∈ p.methods → n ∉ q.methods) ∧
     (∀ nm ∈ st0.methodsByName, ∃ pc ∈ jobDisjoint.partialClasses, nm.1 ∈ pc.methods) ∧
     (processSplit st0 jobDisjoint).result = Except.ok ()) ∧
    ((∀ nm ∈ st0.methodsByName, ∀ mi ∈ nm.2,
        ∃ em ∈ (processSplit st0 jobDisjoint).emittedLists, (nm.1, mi) ∈ em) ∧
     (processSplit st0 jobDisjoint).emittedLists.Pairwise
       (fun e1 e2 => ∀ x, x ∈ e1 → x ∉ e2) ∧
     unprocessedNames (processSplit st0 jobDisjoint).state = []) :=
  ⟨⟨by decide, by decide, by decide, by decide⟩,
   C1_round_trip_amended st0 jobDisjoint (by decide) (by decide) (by decide) (by decide)⟩

/-- A conflicting later document makes the merge loop fail. -/
theorem mergeGo_head_conflict (p : String) (c : ConfigDoc)
    (rest : List (String × ConfigDoc)) (m : JobConfig)
    (acc : List PartialClassConfig) (hc : ConflictsWith m c) :
    ∃ e, mergeGo (some m) acc ((p, c) :: rest) = Except.error e := by
  by_cases h1 : optTruthy c.sourceFile ∧ c.sourceFile ≠ some m.sourceFile
  · exact ⟨_, by simp only [mergeGo]; rw [if_pos h1]⟩
  · by_cases h2 : optTruthy c.targetClassName ∧ c.targetClassName ≠ m.targetClassName
    · exact ⟨_, by simp only [mergeGo]; rw [if_neg h1, if_pos h2]⟩
    · by_cases h3 : optTruthy c.destinationFolder ∧ c.destinationFolder ≠ some m.destinationFolder
      · exact ⟨_, by simp only [mergeGo]; rw [if_neg h1, if_neg h2, if_pos h3]⟩
      · by_cases h4 : optTruthy c.newNamespace ∧ c.newNamespace ≠ some m.newNamespace
        · exact ⟨_, by simp only [mergeGo]; rw [if_neg h1, if_neg h2, if_neg h3, if_pos h4]⟩
        · by_cases h5 : optTruthy c.mainPartialClassName ∧
              c.mainPartialClassName ≠ some m.mainPartialClassName
          · exact ⟨_, by simp only [mergeGo]; rw [if_neg h1, if_neg h2, if_neg h3, if_neg h4, if_pos h5]⟩
          · rcases hc with h | h | h | h | h
            · exact absurd h h1
            · exact absurd h h2
            · exact absurd h h3
            · exact absurd h h4
            · exact absurd h h5

/-- A non-conflicting later document only contributes its specs. -/
theorem mergeGo_head_ok (p : String) (c : ConfigDoc)
    (rest : List (String × ConfigDoc)) (m : JobConfig)
    (acc : List PartialClassConfig) (hc : ¬ ConflictsWith m c) :
    mergeGo (some m) acc ((p, c) :: rest) = mergeGo (some m) (acc ++ pcsOf c) rest := by
  simp only [mergeGo]
  rw [if_neg (fun h => hc (Or.inl h)),
    if_neg (fun h => hc (Or.inr (Or.inl h))),
    if_neg (fun h => hc (Or.inr (Or.inr (Or.inl h)))),
    if_neg (fun h => hc (Or.inr (Or.inr (Or.inr (Or.inl h))))),
    if_neg (fun h => hc (Or.inr (Or.inr (Or.inr (Or.inr h)))))]

/-- Without conflicts, the merge loop appends every document's specs in
document order. -/
theorem mergeGo_some_ok :
    ∀ (rest : List (String × ConfigDoc)) (m : JobConfig) (acc : List PartialClassConfig),
      (∀ d ∈ rest, ¬ ConflictsWith m d.2) →
      mergeGo (some m) acc rest =
        Except.ok (some m, acc ++ rest.flatMap (fun d => pcsOf d.2))
  | [], m, acc, _ => by simp [mergeGo]
  | (p, c) :: rest, m, acc, h => by
    rw [mergeGo_head_ok p c rest m acc (h (p, c) (List.mem_cons_self _ _)),
      mergeGo_some_ok rest m _ (fun d hd => h d (List.mem_cons_of_mem _ hd))]
    simp [List.append_assoc]

/-- With some conflicting document, the merge loop fails. -/
theorem mergeGo_some_err :
    ∀ (rest : List (String × ConfigDoc)) (m : JobConfig) (acc : List PartialClassConfig),
      (∃ d ∈ rest, ConflictsWith m d.2) →
      ∃ e, mergeGo (some m) acc rest = Except.error e
  | [], _, _, h => absurd h (by simp)
  | (p, c) :: rest, m, acc, h => by
    by_cases hc : ConflictsWith m c
    · exact mergeGo_head_conflict p c rest m acc hc
    · rcases h with ⟨d, hd, hconf⟩
      rcases List.mem_cons.mp hd with h0 | h0
      · exact absurd (by rw [h0] at hconf; exact hconf) hc
      · rw [mergeGo_head_ok p c rest m acc hc]
        exact mergeGo_some_err rest m _ ⟨d, h0, hconf⟩

/-- The first document passes the required-key checks and installs its
base. -/
theorem mergeGo_first (p : String) (c : ConfigDoc) (rest : List (String × ConfigDoc))
    (acc : List PartialClassConfig)
    (h1 : optTruthy c.sourceFile = true) (h2 : optTruthy c.destinationFolder = true)
    (h3 : optTruthy c.newNamespace = true) (h4 : optTruthy c.mainPartialClassName = true) :
    mergeGo none acc ((p, c) :: rest) =
      mergeGo (some (baseOf c)) (acc ++ pcsOf c) rest := by
  simp only [mergeGo]
  rw [if_neg (by simp [h1]), if_neg (by simp [h2]), if_neg (by simp [h3]),
    if_neg (by simp [h4])]

/-- C7 counterexample.  The claim asserts that a merge with no later-field
mismatch and no duplicate file name returns the merged configuration; but a
single document missing the required `sourceFile` has neither mismatches
nor duplicate file names, and the merge still fails (missing-required-key
check). -/
theorem C7_counterexample :
    duplicateNames (((([("c1.json", doc1NoSource)] :
        List (String × ConfigDoc))).flatMap (fun d => pcsOf d.2)).map
        (fun pc => pc.fileName)) = [] ∧
    mergeConfigurations [("c1.json", doc1NoSource)] =
      Except.error (wrapErr "c1.json" (missingKeyMsg "c1.json" "sourceFile")) := by
  exact ⟨by decide, rfl⟩

/-- C7 amended: provided the first document supplies non-empty values for
the four required keys (`sourceFile`, `destinationFolder`, `newNamespace`,
`mainPartialClassName`), the merge fails whenever a later document supplies
a truthy `sourceFile`, `targetClassName`, `destinationFolder`,
`newNamespace` or `mainPartialClassName` differing from the first
document's value, fails whenever two entries of the concatenated
partialClasses arrays share a `fileName`, and otherwise returns the first
document's base fields with all documents' partialClasses arrays
concatenated in document order. -/
theorem C7_merge_amended (p : String) (c : ConfigDoc)
    (rest : List (String × ConfigDoc))
    (h1 : optTruthy c.sourceFile = true) (h2 : optTruthy c.destinationFolder = true)
    (h3 : optTruthy c.newNamespace = true) (h4 : optTruthy c.mainPartialClassName = true) :
    ((∀ d ∈ rest, ¬ ConflictsWith (baseOf c) d.2) ∧
      duplicateNames ((((p, c) :: rest).flatMap (fun d => pcsOf d.2)).map
        (fun pc => pc.fileName)) = [] →
      mergeConfigurations ((p, c) :: rest) =
        Except.ok { baseOf c with
          partialClasses := ((p, c) :: rest).flatMap (fun d => pcsOf d.2) }) ∧
    ((∃ d ∈ rest, ConflictsWith (baseOf c) d.2) ∨
      duplicateNames ((((p, c) :: rest).flatMap (fun d => pcsOf d.2)).map
        (fun pc => pc.fileName)) ≠ [] →
      ∃ e, mergeConfigurations ((p, c) :: rest) = Except.error e) := by
  constructor
  · rintro ⟨hnoc, hdup⟩
    unfold mergeConfigurations
    rw [if_neg (by simp)]
    rw [mergeGo_first p c rest [] h1 h2 h3 h4]
    simp only [List.nil_append]
    rw [mergeGo_some_ok rest (baseOf c) (pcsOf c) hnoc]
    simp only [List.flatMap_cons] at hdup ⊢
    rw [if_neg (by simpa using hdup)]
  · intro h
    by_cases hconf : ∃ d ∈ rest, ConflictsWith (baseOf c) d.2
    · rcases mergeGo_some_err rest (baseOf c) (pcsOf c) hconf with ⟨e, he⟩
      refine ⟨e, ?_⟩
      unfold mergeConfigurations
      rw [if_neg (by simp)]
      rw [mergeGo_first p c rest [] h1 h2 h3 h4]
      simp only [List.nil_append]
      rw [he]
    · have hnoc : ∀ d ∈ rest, ¬ ConflictsWith (baseOf c) d.2 := by
        intro d hd hcd
        exact hconf ⟨d, hd, hcd⟩
      have hdup : duplicateNames ((((p, c) :: rest).flatMap (fun d => pcsOf d.2)).map
          (fun pc => pc.fileName)) ≠ [] := by
        rcases h with h | h
        · exact absurd h hconf
        · exact h
      refine ⟨"Duplicate partial class file names found: " ++
        joinSep ", " (duplicateNames (((pcsOf c ++ rest.flatMap (fun d => pcsOf d.2))).map
          (fun pc => pc.fileName))).eraseDups, ?_⟩
      unfold mergeConfigurations
      rw [if_neg (by simp)]
      rw [mergeGo_first p c rest [] h1 h2 h3 h4]
      simp only [List.nil_append]
      rw [mergeGo_some_ok rest (baseOf c) (pcsOf c) hnoc]
      simp only [List.flatMap_cons] at hdup ⊢
      rw [if_pos hdup]

/-- C7 witness: the amended theorem applied to two concrete compatible
documents. -/
theorem C7_witness :
    ((∀ d ∈ [("c2.json", doc2)], ¬ ConflictsWith (baseOf doc1) d.2) ∧
     duplicateNames ((((("c1.json", doc1)) :: [("c2.json", doc2)]).flatMap
       (fun d => pcsOf d.2)).map (fun pc => pc.fileName)) = []) ∧
    mergeConfigurations [("c1.json", doc1), ("c2.json", doc2)] =
      Except.ok { baseOf doc1 with
        partialClasses := ((("c1.json", doc1)) :: [("c2.json", doc2)]).flatMap
          (fun d => pcsOf d.2) } :=
  ⟨⟨by decide, by decide⟩,
   (C7_merge_amended "c1.json" doc1 [("c2.json", doc2)]
     (by decide) (by decide) (by decide) (by decide)).1 ⟨by decide, by decide⟩⟩

/-- Filtering non-whitespace ignores a dropped whitespace front. -/
theorem filter_dropWhile_ws (cs : List Char) :
    (cs.dropWhile isJsWhitespace).filter (fun c => !isJsWhitespace c) =
      cs.filter (fun c => !isJsWhitespace c) := by
  induction cs with
  | nil => rfl
  | cons c cs ih =>
    by_cases hc : isJsWhitespace c
    · rw [List.dropWhile_cons_of_pos hc, ih, List.filter_cons_of_neg (by simp [hc])]
    · rw [List.dropWhile_cons_of_neg hc]

/-- With enough fuel, replacing whitespace runs by nothing equals dropping
every whitespace character. -/
theorem replaceWsRuns_nil_eq_filter :
    ∀ (fuel : Nat) (l : List Char), l.length < fuel →
      replaceWsRuns [] fuel l = l.filter (fun c => !isJsWhitespace c)
  | _ + 1, [], _ => by simp [replaceWsRuns]
  | fuel + 1, c :: cs, hlen => by
    simp only [replaceWsRuns]
    by_cases hc : isJsWhitespace c
    · rw [if_pos hc,
        replaceWsRuns_nil_eq_filter fuel (cs.dropWhile isJsWhitespace)
          (by
            have h1 : (cs.dropWhile isJsWhitespace).length ≤ cs.length :=
              (List.dropWhile_sublist _).length_le
            have h2 : (c :: cs).length < fuel + 1 := hlen
            simp only [List.length_cons] at h2
            omega),
        filter_dropWhile_ws, List.filter_cons_of_neg (by simp [hc]), List.nil_append]
    · rw [if_neg hc,
        replaceWsRuns_nil_eq_filter fuel cs
          (by simp only [List.length_cons] at hlen; omega),
        List.filter_cons_of_pos (by simp [hc])]

/-- Replacing whitespace runs by nothing equals dropping every whitespace
character. -/
theorem stripWsRuns_eq_filter (l : List Char) :
    stripWsRuns l = l.filter (fun c => !isJsWhitespace c) :=
  replaceWsRuns_nil_eq_filter (l.length + 1) l (Nat.lt_succ_self _)

/-- Dropping leading whitespace from an all-non-whitespace list is the
identity. -/
theorem dropWhile_ws_of_filter (l : List Char) (h : ∀ c ∈ l, isJsWhitespace c = false) :
    l.dropWhile isJsWhitespace = l := by
  cases l with
  | nil => rfl
  | cons c cs => exact List.dropWhile_cons_of_neg (by simp [h c (List.mem_cons_self _ _)])

/-- `jsTrim` is the identity on whitespace-free strings. -/
theorem jsTrim_of_no_ws (l : List Char) (h : ∀ c ∈ l, isJsWhitespace c = false) :
    jsTrim (String.mk l) = String.mk l := by
  unfold jsTrim
  rw [dropWhile_ws_of_filter l h,
    dropWhile_ws_of_filter l.reverse (fun c hc => h c (List.mem_reverse.mp hc)),
    List.reverse_reverse]

/-- The normalized signature key is the signature text with every
whitespace character removed. -/
theorem signatureKeyOf_eq_filter (sig : String) :
    signatureKeyOf sig = String.mk (sig.data.filter (fun c => !isJsWhitespace c)) := by
  unfold signatureKeyOf
  rw [stripWsRuns_eq_filter]
  refine jsTrim_of_no_ws _ ?_
  intro c hc
  have := List.of_mem_filter hc
  simpa using this

/-- Lookup in the overwrite-map at the overwritten key. -/
theorem lookupAssoc_overwriteMap_self {α : Type} (m : List (String × α)) (k : String) (v : α) :
    lookupAssoc (m.map (fun p => if p.1 = k then (k, v) else p)) k =
      if (m.find? (fun p => p.1 = k)).isSome then some v else none := by
  induction m with
  | nil => simp [lookupAssoc]
  | cons a m ih =>
    by_cases ha : a.1 = k
    · simp [lookupAssoc, List.find?, ha]
    · simp only [List.map_cons, if_neg ha, lookupAssoc, List.find?_cons,
        decide_eq_false ha] at ih ⊢
      exact ih

/-- Lookup in the overwrite-map at any other key. -/
theorem lookupAssoc_overwriteMap_ne {α : Type} (m : List (String × α)) (k : String) (v : α)
    (k2 : String) (h : k2 ≠ k) :
    lookupAssoc (m.map (fun p => if p.1 = k then (k, v) else p)) k2 = lookupAssoc m k2 := by
  induction m with
  | nil => rfl
  | cons a m ih =>
    by_cases ha : a.1 = k
    · have hne : ¬(k = k2) := fun he => h he.symm
      have hne2 : ¬(a.1 = k2) := by rw [ha]; exact fun he => h he.symm
      simp only [List.map_cons, if_pos ha, lookupAssoc, List.find?_cons,
        decide_eq_false hne, decide_eq_false hne2] at ih ⊢
      exact ih
    · by_cases ha2 : a.1 = k2
      · simp only [List.map_cons, if_neg ha]
        simp [lookupAssoc, List.find?_cons, ha2]
      · simp only [List.map_cons, if_neg ha, lookupAssoc, List.find?_cons,
          decide_eq_false ha2] at ih ⊢
        exact ih

/-- Lookup in a list extended on the right by one pair. -/
theorem lookupAssoc_append_single {α : Type} (m : List (String × α)) (k : String) (v : α)
    (k2 : String) :
    lookupAssoc (m ++ [(k, v)]) k2 =
      (lookupAssoc m k2).or (if k2 = k then some v else none) := by
  induction m with
  | nil =>
    by_cases hk : k2 = k
    · subst hk
      simp [lookupAssoc, List.find?]
    · simp [lookupAssoc, List.find?, decide_eq_false (fun he : k = k2 => hk he.symm), hk]
  | cons a m ih =>
    by_cases ha : a.1 = k2
    · simp [lookupAssoc, List.find?, ha]
    · simp only [List.cons_append, lookupAssoc, List.find?_cons, decide_eq_false ha] at ih ⊢
      exact ih

/-- Lookup and `find?` agree on absence. -/
theorem lookupAssoc_eq_none_of_find {α : Type} (m : List (String × α)) (k : String)
    (h : (m.find? (fun p => p.1 = k)).isSome = false) :
    lookupAssoc m k = none := by
  unfold lookupAssoc
  cases hf : m.find? (fun p => p.1 = k) with
  | none => rfl
  | some a => rw [hf] at h; simp at h

/-- Lookup after an in-place overwrite: the written key. -/
theorem lookupAssoc_setAssoc_self {α : Type} (m : List (String × α)) (k : String) (v : α) :
    lookupAssoc (setAssoc m k v) k = some v := by
  unfold setAssoc
  split
  · next hfind => rw [lookupAssoc_overwriteMap_self, if_pos hfind]
  · next hfind =>
    have hf : ((m.find? (fun p => p.1 = k)).isSome) = false := Bool.eq_false_iff.mpr hfind
    rw [lookupAssoc_append_single, lookupAssoc_eq_none_of_find m k hf]
    simp

/-- Lookup after an in-place overwrite: other keys unchanged. -/
theorem lookupAssoc_setAssoc_ne {α : Type} (m : List (String × α)) (k : String) (v : α)
    (k2 : String) (h : k2 ≠ k) :
    lookupAssoc (setAssoc m k v) k2 = lookupAssoc m k2 := by
  unfold setAssoc
  split
  · exact lookupAssoc_overwriteMap_ne m k v k2 h
  · rw [lookupAssoc_append_single, if_neg h]
    simp

/-- Appending no entries changes nothing. -/
theorem appendEntries_nil (o : Option (List MethodInfo)) : appendEntries o [] = o := by
  cases o <;> simp [appendEntries]

/-- Entry appending composes. -/
theorem appendEntries_append (o : Option (List MethodInfo)) (l1 l2 : List MethodInfo) :
    appendEntries (appendEntries o l1) l2 = appendEntries o (l1 ++ l2) := by
  cases o with
  | none =>
    cases l1 with
    | nil => simp [appendEntries]
    | cons a l1 => cases l2 <;> simp [appendEntries]
  | some l0 => cases l1 <;> cases l2 <;> simp [appendEntries]

/-- `appendEntries` from the empty index. -/
theorem appendEntries_none (l : List MethodInfo) :
    appendEntries none l = if l = [] then none else some l := by
  cases l <;> simp [appendEntries]

/-- By-name lookup after one insertion. -/
theorem insertParsedMethod_byName (st : IndexState) (rm : RawMethod) (n : String) :
    lookupAssoc (insertParsedMethod st rm).methodsByName n =
      if n = rm.methodName then
        appendEntries (lookupAssoc st.methodsByName rm.methodName) [mkInfo rm]
      else lookupAssoc st.methodsByName n := by
  cases hl : lookupAssoc st.methodsByName rm.methodName with
  | none =>
    simp only [insertParsedMethod, hl]
    rw [lookupAssoc_append_single]
    by_cases hn : n = rm.methodName
    · subst hn
      rw [hl, if_pos rfl]
      simp [appendEntries]
    · rw [if_neg hn, if_neg hn]
      simp
  | some l0 =>
    simp only [insertParsedMethod, hl]
    by_cases hn : n = rm.methodName
    · subst hn
      rw [if_pos rfl, lookupAssoc_setAssoc_self]
      simp [appendEntries]
    · rw [if_neg hn, lookupAssoc_setAssoc_ne _ _ _ _ hn]

/-- Signature-index lookup after one insertion: the new key overwrites. -/
theorem insertParsedMethod_methods (st : IndexState) (rm : RawMethod) (k : String) :
    lookupAssoc (insertParsedMethod st rm).methods k =
      if k = signatureKeyOf rm.signature then some rm.content
      else lookupAssoc st.methods k := by
  cases hl : lookupAssoc st.methodsByName rm.methodName <;>
    simp only [insertParsedMethod, hl] <;>
    (by_cases hk : k = signatureKeyOf rm.signature
     · subst hk
       rw [if_pos rfl, lookupAssoc_setAssoc_self]
     · rw [if_neg hk, lookupAssoc_setAssoc_ne _ _ _ _ hk])

/-- Warning count after one insertion. -/
theorem insertParsedMethod_warnings (st : IndexState) (rm : RawMethod) :
    (insertParsedMethod st rm).warnings =
      st.warnings +
        (if (lookupAssoc st.methods (signatureKeyOf rm.signature)).isSome then 1 else 0) := by
  cases hl : lookupAssoc st.methodsByName rm.methodName <;>
    simp only [insertParsedMethod, hl] <;>
    (by_cases hw : (lookupAssoc st.methods (signatureKeyOf rm.signature)).isSome
     · rw [if_pos hw, if_pos hw]
     · rw [if_neg hw, if_neg hw]
       omega)

/-- By-name lookup over the whole insertion loop: the entry list of a name
collects the matches with that name, in scan order. -/
theorem buildIndexes_go_byName :
    ∀ (ms : List RawMethod) (st : IndexState) (n : String),
      lookupAssoc (ms.foldl insertParsedMethod st).methodsByName n =
        appendEntries (lookupAssoc st.methodsByName n)
          ((ms.filter (fun rm => rm.methodName = n)).map mkInfo)
  | [], st, n => by
    rw [List.foldl_nil, List.filter_nil, List.map_nil, appendEntries_nil]
  | rm :: ms, st, n => by
    rw [List.foldl_cons, buildIndexes_go_byName ms, insertParsedMethod_byName]
    by_cases hn : n = rm.methodName
    · rw [if_pos hn, List.filter_cons_of_pos (by simp [hn]), appendEntries_append]
      subst hn
      simp
    · rw [if_neg hn, List.filter_cons_of_neg (by simp; exact fun he => hn he.symm)]

/-- The last element of a cons, as an `Option.or`. -/
theorem getLast?_cons_or {α : Type} (a : α) (l : List α) :
    (a :: l).getLast? = l.getLast?.or (some a) := by
  induction l generalizing a with
  | nil => simp
  | cons b l ih =>
    rw [List.getLast?_cons_cons, ih b]
    cases l.getLast? <;> simp [Option.or]

/-- Signature-index lookup over the whole insertion loop: the last match
with a given key wins. -/
theorem buildIndexes_go_methods :
    ∀ (ms : List RawMethod) (st : IndexState) (k : String),
      lookupAssoc (ms.foldl insertParsedMethod st).methods k =
        (((ms.filter (fun rm => signatureKeyOf rm.signature = k)).map
          (fun rm => rm.content)).getLast?).or (lookupAssoc st.methods k)
  | [], st, k => by simp
  | rm :: ms, st, k => by
    rw [List.foldl_cons, buildIndexes_go_methods ms, insertParsedMethod_methods]
    by_cases hk : signatureKeyOf rm.signature = k
    · rw [List.filter_cons_of_pos (by simp [hk]), if_pos hk.symm, List.map_cons,
        getLast?_cons_or, Option.or_assoc]
      simp
    · rw [List.filter_cons_of_neg (by simp [hk]), if_neg (fun he => hk he.symm)]

/-- Warning count over the whole insertion loop, relative to the keys
already present. -/
theorem buildIndexes_go_warnings :
    ∀ (ms : List RawMethod) (st : IndexState) (seen : List String),
      (∀ k, (lookupAssoc st.methods k).isSome = seen.contains k) →
      (ms.foldl insertParsedMethod st).warnings = st.warnings + dupKeyCount seen ms
  | [], st, seen, _ => by simp [dupKeyCount]
  | rm :: ms, st, seen, h => by
    have hinv : ∀ k, (lookupAssoc (insertParsedMethod st rm).methods k).isSome =
        ((signatureKeyOf rm.signature :: seen).contains k) := by
      intro k
      rw [insertParsedMethod_methods]
      by_cases hk : k = signatureKeyOf rm.signature
      · rw [if_pos hk]
        simp [List.contains_cons, hk]
      · rw [if_neg hk, h k]
        simp [List.contains_cons, hk]
    rw [List.foldl_cons,
      buildIndexes_go_warnings ms (insertParsedMethod st rm) _ hinv,
      insertParsedMethod_warnings, dupKeyCount, h (signatureKeyOf rm.signature)]
    rw [Nat.add_assoc]

/-- C8: the normalized signature key is the raw signature text with every
whitespace character removed; the by-name index maps each name to all
matches with that name in scan order (so colliding signatures both stay
reachable); the signature index maps each key to the content of the last
match with that key (later matches overwrite earlier ones); and one warning
is recorded exactly for each match whose key already occurred earlier. -/
theorem C8_key_normalization_and_indexes :
    (∀ sig : String, signatureKeyOf sig =
      String.mk (sig.data.filter (fun c => !isJsWhitespace c))) ∧
    (∀ (ms : List RawMethod) (n : String),
      lookupAssoc (buildIndexes ms).methodsByName n =
        (if (ms.filter (fun rm => rm.methodName = n)).map mkInfo = [] then none
         else some ((ms.filter (fun rm => rm.methodName = n)).map mkInfo))) ∧
    (∀ (ms : List RawMethod) (k : String),
      lookupAssoc (buildIndexes ms).methods k =
        ((ms.filter (fun rm => signatureKeyOf rm.signature = k)).map
          (fun rm => rm.content)).getLast?) ∧
    (∀ ms : List RawMethod, (buildIndexes ms).warnings = dupKeyCount [] ms) := by
  refine ⟨signatureKeyOf_eq_filter, ?_, ?_, ?_⟩
  · intro ms n
    unfold buildIndexes
    rw [buildIndexes_go_byName ms _ n]
    have : lookupAssoc ({ methods := [], methodsByName := [], warnings := 0 } :
        IndexState).methodsByName n = none := rfl
    rw [this, appendEntries_none]
  · intro ms k
    unfold buildIndexes
    rw [buildIndexes_go_methods ms _ k]
    have : lookupAssoc ({ methods := [], methodsByName := [], warnings := 0 } :
        IndexState).methods k = none := rfl
    rw [this]
    simp
  · intro ms
    unfold buildIndexes
    have := buildIndexes_go_warnings ms
      { methods := [], methodsByName := [], warnings := 0 } [] (fun k => rfl)
    simpa using this

end CSRef
